import Mathlib

/-!
# Verification of the exponent-pair derivation engine

A shallow embedding of `blueprint/src/python/exponent_pair.py` together with
models of the external collaborators it uses (the knowledge-base layer from
`hypotheses.py`, the β-bound module from `bound_beta.py`, the scipy convex
hull, and the polytope utility), following the repository's design document.

Conventions of the embedding:
* Python `Fraction` is `ℚ`.
* Python exceptions are modelled by the `Err` type: a function that can raise
  returns `Except Err _`.  Division of fractions checks the divisor, since
  Python raises `ZeroDivisionError` while `ℚ` division totalises.
* The mutable `Hypothesis_Set` is passed functionally.  A shallow copy
  (`copy.copy`) of a set shares the auxiliary cache dictionary `data` with the
  original but has its own attribute slots and its own membership container,
  as the design document specifies.  Operations that mutate a set return the
  new set; the entry points of proof search additionally return the caller's
  view of its own set after the call (same membership, same `data_valid`
  attribute, but the shared `data` dictionary as the callee left it).
-/

namespace ExpPairDB

attribute [local semireducible] Rat.add Rat.sub Rat.mul Rat.inv

/-- Python exception classes that the embedded code can raise. -/
inductive Err where
  /-- `scipy.spatial.QhullError`: the input of `ConvexHull` is degenerate
  (fewer than three distinct vertices in the hull). -/
  | qhull
  /-- `TypeError`: subscripting a `set` (line 184) or iterating `None`
  (line 226). -/
  | typeErr
  /-- `AttributeError`: reading `.k`/`.l`/`.transform` from a payload of the
  wrong kind. -/
  | attrErr
  /-- `ZeroDivisionError` from `Fraction` division. -/
  | zeroDiv
  /-- `IndexError` from list subscripting. -/
  | indexErr
  /-- `ValueError`: `min()`/`max()` of an empty sequence, or the
  `isinstance` guard of `find_best_proof`. -/
  | valueErr
  /-- `NotImplementedError` from the final branch of `find_best_proof`. -/
  | notImpl
deriving DecidableEq

/-- A point of the plane with exact rational coordinates. -/
abbrev Pt := ℚ × ℚ

/-! ## The external 2-D geometry utility

The design document treats the convex hull and the containment polytope as an
external collaborator: "vertex list of a 2-D point set's convex hull, ordered
consistently (must support iterating consecutive pairs cyclically), plus a
boundary-inclusive point-containment test".  We model it with an Andrew
monotone-chain hull over exact rationals.  Like `scipy.spatial.ConvexHull`,
the model returns the *indices* of the hull vertices in counterclockwise
order and raises (`Err.qhull`) when the input is degenerate (all points
collinear, or fewer than three distinct points). -/

/-- Twice the signed area of the triangle `o a b`; positive iff the triple is
a counterclockwise (left) turn. -/
def cross (o a b : Pt) : ℚ :=
  (a.1 - o.1) * (b.2 - o.2) - (a.2 - o.2) * (b.1 - o.1)

/-- Strict lexicographic order on points. -/
def lexLt (p q : Pt) : Prop :=
  p.1 < q.1 ∨ (p.1 = q.1 ∧ p.2 < q.2)

instance : DecidableRel lexLt := fun p q => by
  unfold lexLt; infer_instance

/-- Lexicographic order on points. -/
def lexLe (p q : Pt) : Prop :=
  p.1 < q.1 ∨ (p.1 = q.1 ∧ p.2 ≤ q.2)

instance : DecidableRel lexLe := fun p q => by
  unfold lexLe; infer_instance

instance : IsTotal Pt lexLe :=
  ⟨by
    intro p q
    unfold lexLe
    rcases lt_trichotomy p.1 q.1 with h | h | h
    · exact Or.inl (Or.inl h)
    · rcases le_total p.2 q.2 with h2 | h2
      · exact Or.inl (Or.inr ⟨h, h2⟩)
      · exact Or.inr (Or.inr ⟨h.symm, h2⟩)
    · exact Or.inr (Or.inl h)⟩

instance : IsTrans Pt lexLe :=
  ⟨by
    intro p q r h1 h2
    rcases h1 with h1 | ⟨ha, hb⟩ <;> rcases h2 with h2 | ⟨hc, hd⟩
    · exact Or.inl (h1.trans h2)
    · exact Or.inl (hc ▸ h1)
    · exact Or.inl (ha ▸ h2)
    · exact Or.inr ⟨ha.trans hc, hb.trans hd⟩⟩

/-- The point reflection used to carry upper-chain facts to the lower-chain
setting: a half turn of the strip `0 ≤ α ≤ 1/2` about its centre, swapping
the columns α = 0 and α = 1/2 and fixing the line β = 0. -/
def phi (p : Pt) : Pt := (1/2 - p.1, -p.2)

/-- One step of the monotone chain: push `p`, popping while the turn through
the two topmost stack entries is not a strict left turn.  The stack is stored
with its most recent entry first. -/
def chainStep (p : Pt) : List Pt → List Pt
  | b :: a :: rest =>
      if cross a b p ≤ 0 then chainStep p (a :: rest) else p :: b :: a :: rest
  | st => p :: st

/-- Half hull (Andrew monotone chain) of a list of points, in input order. -/
def chain (pts : List Pt) : List Pt :=
  (pts.foldl (fun st p => chainStep p st) []).reverse

/-- The convex hull of a point list: counterclockwise vertex list.
Degenerate inputs (hull with fewer than three vertices) raise, as
`scipy.spatial.ConvexHull` does on flat input. -/
def hullPts (pts : List Pt) : Except Err (List Pt) :=
  let srt := (pts.dedup).insertionSort lexLe
  let lower := chain srt
  let upper := chain srt.reverse
  let hull := lower.dropLast ++ upper.dropLast
  if hull.length < 3 then .error .qhull else .ok hull

/-- `ConvexHull(points).vertices`: indices of the hull vertices into the
input list, counterclockwise.  Where the input contains duplicate points the
index of the first occurrence is reported (scipy reports one representative;
the choice is a modelling convention). -/
def convexHullIdx (pts : List Pt) : Except Err (List ℕ) :=
  (hullPts pts).map (fun l => l.map (fun p => pts.indexOf p))

/-- Boundary-inclusive membership of `p` in the segment from `a` to `b`. -/
def segMem (a b p : Pt) : Bool :=
  cross a b p = 0 ∧ min a.1 b.1 ≤ p.1 ∧ p.1 ≤ max a.1 b.1 ∧
    min a.2 b.2 ≤ p.2 ∧ p.2 ≤ max a.2 b.2

/-- Boundary-inclusive membership of `p` in the (possibly degenerate)
triangle `a b c`. -/
def triMem (a b c p : Pt) : Bool :=
  if cross a b c = 0 then segMem a b p || segMem b c p || segMem a c p
  else
    (0 ≤ cross a b p ∧ 0 ≤ cross b c p ∧ 0 ≤ cross c a p) ||
    (cross a b p ≤ 0 ∧ cross b c p ≤ 0 ∧ cross c a p ≤ 0)

/-- All 2-element combinations of a list, in `itertools.combinations`
order. -/
def combos2 : List α → List (List α)
  | [] => []
  | x :: xs => (xs.map fun y => [x, y]) ++ combos2 xs

/-- All 3-element combinations of a list, in `itertools.combinations`
order. -/
def combos3 : List α → List (List α)
  | [] => []
  | x :: xs => ((combos2 xs).map fun yz => x :: yz) ++ combos3 xs

/-- `Polytope.from_V_rep(vs).contains(p)`, the external boundary-inclusive
containment test: `p` lies in the convex hull of the vertex list `vs`
(by Carathéodory, in some possibly-degenerate triangle over `vs`, or on the
segment/point for fewer than three vertices). -/
def containsQ (vs : List Pt) (p : Pt) : Bool :=
  match vs with
  | [] => false
  | [a] => p = a
  | [a, b] => segMem a b p
  | _ => (combos3 vs).any fun t =>
      match t with
      | [a, b, c] => triMem a b c p
      | _ => false

/-! ## The knowledge-base layer (external, modelled from the design document)

`hypotheses.py` is outside the analysed source; its interface is modelled
from §3 and §6 of the design document: `Hypothesis`, `Reference` (publication
year or an explicit unknown sentinel, plus the synthetic categories trivial /
conjectured / derived-with-year and `max_year`), and the mutable
`Hypothesis_Set` with an auxiliary cache `data` guarded by `data_valid`. -/

/-- Modelled from the spec: a bibliographic `Reference`.  `year?` is the
`year()` accessor, `none` standing for the `'Unknown date'` sentinel. -/
inductive Ref where
  | lit (author : String) (year : Int)
  | litUnknown (author : String)
  | trivialRef
  | conjecturedRef
  | derivedRef (year : Option Int)

/-- The `year()` accessor of a reference: a year or the unknown sentinel. -/
def Ref.year? : Ref → Option Int
  | .lit _ y => some y
  | .litUnknown _ => none
  | .trivialRef => none
  | .conjecturedRef => none
  | .derivedRef y => y

/-- The `author()` accessor of a reference. -/
def Ref.author : Ref → String
  | .lit a _ => a
  | .litUnknown a => a
  | _ => ""

/-- Modelled from the spec: `Reference.max_year`, combining a collection of
references into the latest known publication year (unknown if none of the
references carries a year). -/
def Ref.maxYear (rs : List Ref) : Option Int :=
  (rs.filterMap Ref.year?).max?

/-- An exact-rational exponent pair `(k, l)` (class `Exp_pair`). -/
structure Exp_pair where
  k : ℚ
  l : ℚ
deriving DecidableEq

/-- Modelled from the spec: the payload of a piecewise β-bound hypothesis
(module `bound_beta`, not in the analysed source): a function piece over a
sub-interval `[x0, x1]` of `[0, 1/2]`, evaluable at its boundary via
`at(x, extend_domain=True)`, which field `f` models. -/
structure BetaPiece where
  x0 : ℚ
  x1 : ℚ
  f : ℚ → ℚ
  hx0 : 0 ≤ x0 ∧ x0 ≤ 1/2
  hx1 : 0 ≤ x1 ∧ x1 ≤ 1/2

/-- The payload of a hypothesis: an exponent pair, an exponent-pair transform
(a code of type `τ`, interpreted by the ambient `interp` function), or a
piecewise β-bound. -/
inductive HypData (τ : Type) where
  | pair (p : Exp_pair)
  | transform (t : τ)
  | beta (b : BetaPiece)

/-- A `Hypothesis`: display name, payload, proof narrative, bibliographic
reference and the hypotheses it was derived from.  The type tag of the
Python object is determined by the payload (all constructors in the source
pair them consistently), see `Hyp.htype`. -/
inductive Hyp (τ : Type) where
  | mk (name : String) (data : HypData τ) (proofTxt : String) (reference : Ref)
       (dependencies : List (Hyp τ))

/-- Display name of a hypothesis. -/
def Hyp.name : Hyp τ → String
  | .mk n _ _ _ _ => n

/-- Payload of a hypothesis (`.data`). -/
def Hyp.data : Hyp τ → HypData τ
  | .mk _ d _ _ _ => d

/-- Proof narrative of a hypothesis. -/
def Hyp.proofTxt : Hyp τ → String
  | .mk _ _ p _ _ => p

/-- Reference of a hypothesis. -/
def Hyp.reference : Hyp τ → Ref
  | .mk _ _ _ r _ => r

/-- Dependency collection of a hypothesis (Python stores a `set`; the model
keeps the construction-order list of the same hypotheses). -/
def Hyp.dependencies : Hyp τ → List (Hyp τ)
  | .mk _ _ _ _ d => d

/-- The type tag of a hypothesis, as the strings used by the source. -/
def Hyp.htype : Hyp τ → String
  | .mk _ (.pair _) _ _ _ => "Exponent pair"
  | .mk _ (.transform _) _ _ _ => "Exponent pair transform"
  | .mk _ (.beta _) _ _ _ => "Beta bound"

/-- The exponent-pair payload of a hypothesis, when it has one. -/
def Hyp.pairData? : Hyp τ → Option Exp_pair
  | .mk _ (.pair p) _ _ _ => some p
  | _ => none

/-- The β-bound payload of a hypothesis, when it has one. -/
def Hyp.betaData? : Hyp τ → Option BetaPiece
  | .mk _ (.beta b) _ _ _ => some b
  | _ => none

/-- The transform payload of a hypothesis, when it has one. -/
def Hyp.transData? : Hyp τ → Option τ
  | .mk _ (.transform t) _ _ _ => some t
  | _ => none

/-- The `(k, l)` deduplication key of an exponent-pair hypothesis. -/
def Hyp.key? (h : Hyp τ) : Option (ℚ × ℚ) :=
  h.pairData?.map fun p => (p.k, p.l)

mutual

/-- Modelled from the spec: the recursively-defined `proof_complexity()`
numeric cost exposed by every hypothesis (a black box to the engine; only
its values are compared). -/
def Hyp.proof_complexity : Hyp τ → ℕ
  | .mk _ _ _ _ deps => 1 + complexityList deps

/-- Total proof complexity of a list of hypotheses. -/
def complexityList : List (Hyp τ) → ℕ
  | [] => 0
  | h :: t => Hyp.proof_complexity h + complexityList t

end

/-- Modelled from the spec: a `Hypothesis_Set`.  `hyps` is the membership
container; `dataHull` models the single key `'convex_hull'` ever used in the
auxiliary cache dictionary `data`, and `data_valid` its guard flag. -/
structure HypSet (τ : Type) where
  hyps : List (Hyp τ)
  dataHull : Option (List (Hyp τ))
  data_valid : Bool

/-- A fresh `Hypothesis_Set` built from an iterable: empty cache, invalid
flag. -/
def HypSet.ofList (hs : List (Hyp τ)) : HypSet τ :=
  ⟨hs, none, false⟩

/-- `list_hypotheses(type)`: the hypotheses of the given type tag, in
insertion order. -/
def HypSet.listHyps (s : HypSet τ) (t : String) : List (Hyp τ) :=
  s.hyps.filter fun h => h.htype == t

/-- The exponent-pair hypotheses of a set paired with their `(k, l)` keys. -/
def HypSet.pairHyps (s : HypSet τ) : List ((ℚ × ℚ) × Hyp τ) :=
  s.hyps.filterMap fun h => (h.key?).map fun k => (k, h)

/-- `find_hypothesis(keyword)`: the first hypothesis whose name matches the
keyword (modelled from the spec as exact name match). -/
def HypSet.findHyp (s : HypSet τ) (kw : String) : Option (Hyp τ) :=
  s.hyps.find? fun h => h.name == kw

/-- Whether the set already holds an exponent pair with this key. -/
def HypSet.hasPairKey (s : HypSet τ) (k : ℚ × ℚ) : Bool :=
  s.hyps.any fun h => h.key? == some k

/-- Insertion of one hypothesis: exponent pairs are deduplicated by exact
`(k, l)` key ("no two records with equal (k,l) coexist in any working set");
inserting a new exponent pair invalidates the cache flag, as the design
document's invariant requires. -/
def HypSet.add1 (s : HypSet τ) (h : Hyp τ) : HypSet τ :=
  match h.key? with
  | some k =>
      if s.hasPairKey k then s
      else { s with hyps := s.hyps ++ [h], data_valid := false }
  | none => { s with hyps := s.hyps ++ [h] }

/-- `add_hypotheses(iterable)`: bulk insertion. -/
def HypSet.add (s : HypSet τ) (new : List (Hyp τ)) : HypSet τ :=
  new.foldl HypSet.add1 s

/-- Number of hypotheses of the set (`len`). -/
def HypSet.size (s : HypSet τ) : ℕ := s.hyps.length

/-! ## Constructors for exponent pairs (source lines 52-68) -/

/-- `literature_exp_pair`. -/
def literature_exp_pair (k l : ℚ) (ref : Ref) : Hyp τ :=
  Hyp.mk (ref.author ++ " exponent pair") (.pair ⟨k, l⟩)
    ("See [" ++ ref.author ++ "]") ref []

/-- `derived_exp_pair`: the derived reference year is the latest year among
the dependencies' references. -/
def derived_exp_pair (k l : ℚ) (proofTxt : String) (deps : List (Hyp τ)) :
    Hyp τ :=
  Hyp.mk ("Derived exponent pair (" ++ toString k ++ ", " ++ toString l ++ ")")
    (.pair ⟨k, l⟩) proofTxt (Ref.derivedRef (Ref.maxYear (deps.map Hyp.reference))) deps

/-- `trivial_exp_pair`: the pair (0, 1) by the triangle inequality. -/
def trivial_exp_pair : Hyp τ :=
  Hyp.mk "Trivial exponent pair (0, 1)" (.pair ⟨0, 1⟩) "Triangle inequality"
    .trivialRef []

/-- `exponent_pair_conjecture`: the conjectured pair (0, 0). -/
def exponent_pair_conjecture : Hyp τ :=
  Hyp.mk "Exponent pair conjecture" (.pair ⟨0, 0⟩) "Conjecture" .conjecturedRef []

/-! ## The closure engine: `compute_exp_pairs` (source lines 81-101)

The working mapping keyed by `(k, l)` is an insertion-ordered association
list, as a Python `dict`. -/

/-- The coordinates `(p.data.k, p.data.l)` of a hypothesis; only ever applied
to hypotheses whose type tag is `'Exponent pair'`, whose payload is a pair. -/
def hypCoord (h : Hyp τ) : Pt :=
  match h.data with
  | .pair p => (p.k, p.l)
  | _ => (0, 0)

/-- Membership of a key in the association list. -/
def alHasKey (al : List (Pt × Hyp τ)) (k : Pt) : Bool :=
  al.any fun e => e.1 == k

/-- `dict[k] = h`: replace in place if the key is present (keeping its
insertion position, as a Python dict), else append. -/
def alStore (al : List (Pt × Hyp τ)) (k : Pt) (h : Hyp τ) :
    List (Pt × Hyp τ) :=
  match al with
  | [] => [(k, h)]
  | e :: rest => if e.1 = k then (k, h) :: rest else e :: alStore rest k h

/-- The dict comprehension `{(p.data.k, p.data.l): p for p in pairs}`. -/
def dictOfPairs (hs : List (Hyp τ)) : List (Pt × Hyp τ) :=
  hs.foldl (fun al h => alStore al (hypCoord h) h) []

/-- Safe list subscripting, raising `IndexError` out of bounds. -/
def selectIdx (l : List α) (idx : List ℕ) : Except Err (List α) :=
  idx.mapM fun i =>
    match l.get? i with
    | some a => .ok a
    | none => .error .indexErr

/-- One pass of a single transform over a snapshot of the current key set
(source lines 87-92): every snapshot entry is transformed; results whose key
is new are appended.  Reading `.data.k` of a transform result that is not an
exponent pair raises. -/
def one_transform_pass (interp : τ → Hyp τ → Hyp τ) (t : τ)
    (al : List (Pt × Hyp τ)) : Except Err (List (Pt × Hyp τ)) :=
  al.foldlM
    (fun cur e => do
      let tp := interp t e.2
      match tp.pairData? with
      | none => .error .attrErr
      | some ep =>
          let k2 : Pt := (ep.k, ep.l)
          pure (if alHasKey cur k2 then cur else cur ++ [(k2, tp)]))
    al

/-- The pruning step at the end of a round (source lines 94-99): with at
least three pairs, reduce the working set to the convex hull vertices. -/
def pruneStep (al : List (Pt × Hyp τ)) : Except Err (List (Pt × Hyp τ)) :=
  if al.length < 3 then .ok al
  else do
    let vidx ← convexHullIdx (al.map (·.1))
    let verts ← selectIdx al vidx
    return verts.foldl (fun d e => alStore d e.1 e.2) []

/-- The round iteration of the closure engine. -/
def expPairsIter (interp : τ → Hyp τ → Hyp τ) (transforms : List (Hyp τ))
    (prune : Bool) : ℕ → List (Pt × Hyp τ) → Except Err (List (Pt × Hyp τ))
  | 0, al => .ok al
  | n + 1, al => do
      let al2 ← transforms.foldlM
        (fun cur th => do
          match th.transData? with
          | none => .error .attrErr
          | some t => one_transform_pass interp t cur)
        al
      let al3 ← if prune then pruneStep al2 else pure al2
      expPairsIter interp transforms prune n al3

/-- `compute_exp_pairs(hypothesis_set, search_depth, prune)`: close the known
exponent pairs under the registered transforms. -/
def compute_exp_pairs (interp : τ → Hyp τ → Hyp τ) (s : HypSet τ)
    (search_depth : ℕ) (prune : Bool) : Except Err (List (Hyp τ)) := do
  let pairs := s.listHyps "Exponent pair"
  let transforms := s.listHyps "Exponent pair transform"
  let al ← expPairsIter interp transforms prune search_depth (dictOfPairs pairs)
  return al.map (·.2)

/-! ## The convex hull cache: `compute_convex_hull` (source lines 106-120) -/

/-- `compute_convex_hull(hypothesis_set)`: return the cached hull when the
flag is valid and a hull is stored; otherwise recompute (the full pair list
when fewer than three pairs exist, else the hull vertex hypotheses), store
it, and — only in the non-degenerate branch — set the validity flag.  The
second component is the set after the call (its cache fields may change). -/
def compute_convex_hull (s : HypSet τ) :
    Except Err (List (Hyp τ)) × HypSet τ :=
  let pairs := s.listHyps "Exponent pair"
  match s.data_valid, s.dataHull with
  | true, some v => (.ok v, s)
  | _, _ =>
    if pairs.length < 3 then
      (.ok pairs, { s with dataHull := some pairs })
    else
      match convexHullIdx (pairs.map hypCoord) with
      | .error e => (.error e, s)
      | .ok vidx =>
        match selectIdx pairs vidx with
        | .error e => (.error e, s)
        | .ok verts => (.ok verts, { s with dataHull := some verts, data_valid := true })

/-! ## The beta-duality converter: `beta_bounds_to_exponent_pairs`
(source lines 125-193) -/

/-- Ordering of β-bound pieces by left endpoint of their domain. -/
def betaLe (a b : Hyp τ × BetaPiece) : Prop := a.2.x0 ≤ b.2.x0

instance : DecidableRel (betaLe (τ := τ)) := fun a b => by
  unfold betaLe; infer_instance

/-- Modelled from the spec: `compute_best_beta_bounds` (module `bound_beta`,
not in the analysed source) — "collect all β-bound hypotheses", as pieces
ordered by domain. -/
def best_beta_bounds (s : HypSet τ) : List (Hyp τ × BetaPiece) :=
  (s.hyps.filterMap fun h => (h.betaData?).map fun b => (h, b)).insertionSort betaLe

/-- Whether a β-bound piece touches the point `p`: `p` is one of the piece's
boundary points (source lines 158-159). -/
def touches (e : Hyp τ × BetaPiece) (p : Pt) : Bool :=
  (e.2.x0 == p.1 && e.2.f p.1 == p.2) || (e.2.x1 == p.1 && e.2.f p.1 == p.2)

/-- An edge of the hull walk carrying no exponent-pair information
(source lines 171-173): along β = 0, along α = 0, or along α = 1/2. -/
def degEdge (p1 p2 : Pt) : Prop :=
  (p1.2 = 0 ∧ p2.2 = 0) ∨ (p1.1 = 0 ∧ p2.1 = 0) ∨ (p1.1 = 1/2 ∧ p2.1 = 1/2)

instance : DecidableRel degEdge := fun p q => by
  unfold degEdge; infer_instance

/-- The critical-point list of the converter (source lines 137-141): the
anchor `(0,0)`, the placeholder `(1/2, 0)`, then both boundary points of
every piece. -/
def betaPoints (bb : List (Hyp τ × BetaPiece)) : List Pt :=
  [(0, 0), (1/2, 0)] ++
    bb.flatMap fun e => [(e.2.x0, e.2.f e.2.x0), (e.2.x1, e.2.f e.2.x1)]

/-- The precomputed dependency list (source lines 152-161): every β-bound
hypothesis one of whose boundary points is a non-placeholder hull vertex.
The indices of a Python set of small naturals iterate in ascending order. -/
def betaDeps (bb : List (Hyp τ × BetaPiece)) (points : List Pt)
    (vidx : List ℕ) : List (Hyp τ) :=
  ((List.range bb.length).filter fun i =>
    vidx.any fun v =>
      decide (2 ≤ v) &&
        match bb.get? i, points.get? v with
        | some e, some p => touches e p
        | _, _ => false).filterMap
    fun i => (bb.get? i).map (·.1)

/-- The B-transform mirroring tail of one edge iteration (source lines
186-192): locate the registered B transform by keyword; when present apply
it to the pair just handled and record its mirror if the mirror's key is
new. -/
def betaMirror (interp : τ → Hyp τ → Hyp τ) (s : HypSet τ)
    (known_eps : List Pt) (h : Hyp τ) (all2 : List (Hyp τ)) :
    Except Err (List (Hyp τ)) :=
  match s.findHyp "van der Corput B transform" with
  | none => .ok all2
  | some B =>
    match B.transData? with
    | none => .error .attrErr
    | some t =>
      let Bh := interp t h
      match Bh.pairData? with
      | none => .error .attrErr
      | some ep =>
          .ok (if (ep.k, ep.l) ∈ known_eps then all2 else all2 ++ [Bh])

/-- The body of the hull-edge walk (source lines 167-192) for edge index
`i`, acting on the accumulated list of exponent pairs. -/
def betaEdgeStep (interp : τ → Hyp τ → Hyp τ) (s : HypSet τ)
    (points : List Pt) (vidx : List ℕ) (dependencies : List (Hyp τ))
    (known_eps : List Pt) (all : List (Hyp τ)) (i : ℕ) :
    Except Err (List (Hyp τ)) :=
  match vidx.get? i, vidx.get? ((i + 1) % vidx.length) with
  | some v1, some v2 =>
    match points.get? v1, points.get? v2 with
    | some p1, some p2 =>
      if degEdge p1 p2 then .ok all
      else if p2.1 - p1.1 = 0 then .error .zeroDiv
      else
        let m := (p2.2 - p1.2) / (p2.1 - p1.1)
        let c := (p1.2 * p2.1 - p1.1 * p2.2) / (p2.1 - p1.1)
        -- Source line 179 records the key `(m, m + c)`; the comment right
        -- above it (line 176) and the design document state that the
        -- tangent line β = m·α + c corresponds to the pair `(c, m + c)`.
        let key : Pt := (m, m + c)
        if key ∈ known_eps then
          -- Line 184 subscripts `known_eps`, which is a `set`: TypeError.
          .error .typeErr
        else
          let h := derived_exp_pair key.1 key.2
            ("Follows from combining " ++ toString dependencies.length ++
              " bounds on beta") dependencies
          betaMirror interp s known_eps h (all ++ [h])
    | _, _ => .error .indexErr
  | _, _ => .error .indexErr

/-- The hull-edge walk over a list of edge indices. -/
def edgeLoop (interp : τ → Hyp τ → Hyp τ) (s : HypSet τ) (points : List Pt)
    (vidx : List ℕ) (dependencies : List (Hyp τ)) (known_eps : List Pt) :
    List ℕ → List (Hyp τ) → Except Err (List (Hyp τ))
  | [], all => .ok all
  | i :: rest, all =>
      match betaEdgeStep interp s points vidx dependencies known_eps all i with
      | .error e => .error e
      | .ok all2 => edgeLoop interp s points vidx dependencies known_eps rest all2

/-- `beta_bounds_to_exponent_pairs(hypothesis_set)`: derive exponent pairs
from the β-bound pieces via the tangent-line duality. -/
def beta_bounds_to_exponent_pairs (interp : τ → Hyp τ → Hyp τ)
    (s : HypSet τ) : Except Err (List (Hyp τ)) :=
  let bb := best_beta_bounds s
  match bb.head?, bb.getLast? with
  | none, _ => .ok []
  | _, none => .ok []
  | some fst0, some lst0 =>
    if fst0.2.x0 > 0 ∨ lst0.2.x1 < 1/2 then .ok []
    else
      let points := betaPoints bb
      match convexHullIdx points with
      | .error e => .error e
      | .ok vidx =>
        let dependencies := betaDeps bb points vidx
        let known_ephs := s.listHyps "Exponent pair"
        let known_eps := known_ephs.map hypCoord
        edgeLoop interp s points vidx dependencies known_eps
          (List.range vidx.length) known_ephs

/-- The converter's coverage precondition failure (source lines 132-134):
no β-bound pieces at all, or the first piece's domain starts after 0, or the
last piece's domain ends before 1/2. -/
def betaPrecondFails (s : HypSet τ) : Bool :=
  match (best_beta_bounds s).head?, (best_beta_bounds s).getLast? with
  | none, _ => true
  | _, none => true
  | some fst0, some lst0 => decide (fst0.2.x0 > 0 ∨ lst0.2.x1 < 1/2)

/-! ## Proof search: `find_proof` (source lines 199-233)

`find_proof` shallow-copies the caller's set and mutates the copy.  Per the
design document the copy protects the membership container and the attribute
slots, but the auxiliary cache dictionary `data` is the very dictionary of
the caller's set; a store into it through the copy is visible to the caller.
The second component of the result is the caller's set after the call:
same membership list, same `data_valid` attribute, and the shared dictionary
as the callee left it. -/

/-- The sum of the proof complexities of a vertex triple. -/
def triComp (tri : List (Hyp τ)) : ℕ :=
  (tri.map Hyp.proof_complexity).sum

/-- One iteration of the triangle-minimization loop (source lines 217-223):
a containing triangle replaces the best candidate when its total proof
complexity is strictly smaller (`None` standing for the initial infinite
bound). -/
def triStep (k l : ℚ) (best : Option (ℕ × List (Hyp τ)))
    (tri : List (Hyp τ)) : Option (ℕ × List (Hyp τ)) :=
  if containsQ (tri.map hypCoord) (k, l) then
    match best with
    | none => some (triComp tri, tri)
    | some (c0, t0) =>
        if triComp tri < c0 then some (triComp tri, tri) else some (c0, t0)
  else best

/-- The triangle-minimization loop (source lines 215-223): enumerate the
3-element combinations of the hull vertices in `itertools` order; among the
containing triangles keep the first one of least total proof complexity. -/
def best_tri (k l : ℚ) (verts : List (Hyp τ)) : Option (List (Hyp τ)) :=
  ((combos3 verts).foldl (triStep k l) none).map (·.2)

/-- The invariant of the triangle-minimization loop over the processed
prefix `L`: either no processed triangle contains the target, or the state
holds the first containing triangle of least complexity seen so far. -/
def TriInv (k l : ℚ) (L : List (List (Hyp τ)))
    (st : Option (ℕ × List (Hyp τ))) : Prop :=
  match st with
  | none => ∀ t ∈ L, containsQ (t.map hypCoord) (k, l) = false
  | some (c, t) =>
      c = triComp t ∧ containsQ (t.map hypCoord) (k, l) = true ∧
      (∃ i, L.get? i = some t ∧ ∀ j t2, j < i → L.get? j = some t2 →
        containsQ (t2.map hypCoord) (k, l) = true → c < triComp t2) ∧
      (∀ t2 ∈ L, containsQ (t2.map hypCoord) (k, l) = true → c ≤ triComp t2)

/-- The proof narrative of a convexity citation. -/
def convexityProof (vs : List (Hyp τ)) : String :=
  "Follows from convexity and the exponent pairs " ++
    String.intercalate ", "
      (vs.map fun v => "(" ++ toString (hypCoord v).1 ++ ", " ++
        toString (hypCoord v).2 ++ ")")

/-- The augmentation stage of proof search (source lines 200-203): the copy
after adding the beta-duality-derived pairs and then the closure-engine
pairs. -/
def augmentedSet (interp : τ → Hyp τ → Hyp τ) (s : HypSet τ) :
    Except Err (HypSet τ) := do
  let b ← beta_bounds_to_exponent_pairs interp s
  let c1 := s.add b
  let more ← compute_exp_pairs interp c1 5 true
  return c1.add more

/-- The caller's view of its own set after a search that left the internal
copy in state `c`: own membership and `data_valid` attribute, shared `data`
dictionary. -/
def callerView (s c : HypSet τ) : HypSet τ :=
  { hyps := s.hyps, dataHull := c.dataHull, data_valid := s.data_valid }

/-- The containment test and citation construction of `find_proof` (source
lines 211-233), given the hull vertices of the augmented set.  When the
target is contained and `best_tri` is `None`, the `', '.join` over `None`
(line 226) raises `TypeError`. -/
def hull_cite (k l : ℚ) (verts : List (Hyp τ)) (optimize : Bool) :
    Except Err (Option (Hyp τ)) :=
  if containsQ (verts.map hypCoord) (k, l) then
    if optimize then
      match best_tri k l verts with
      | none => .error .typeErr
      | some tri => .ok (some (derived_exp_pair k l (convexityProof tri) tri))
    else .ok (some (derived_exp_pair k l (convexityProof verts) verts))
  else .ok none

/-- `find_proof(k, l, hypotheses, optimize)`. -/
def find_proof (interp : τ → Hyp τ → Hyp τ) (k l : ℚ) (s : HypSet τ)
    (optimize : Bool) : Except Err (Option (Hyp τ)) × HypSet τ :=
  match augmentedSet interp s with
  | .error e => (.error e, s)
  | .ok s2 =>
    if (s2.listHyps "Exponent pair").length = 0 then (.ok none, s)
    else
      let r := compute_convex_hull s2
      match r.1 with
      | .error e => (.error e, callerView s r.2)
      | .ok verts => (hull_cite k l verts optimize, callerView s r.2)

/-! ## Proof search: `find_best_proof` (source lines 239-275) -/

/-- The optimization-strategy selector (class `Proof_Optimization_Method` of
the knowledge-base layer, modelled from the spec; `other` stands for an
unrecognized selector). -/
inductive Proof_Optimization_Method where
  | NONE
  | DATE
  | COMPLEXITY
  | other (tag : String)

/-- The year filter of the earliest-date strategy (source lines 251-252):
hypotheses dated at or before the cutoff, plus all undated ones, gathered
into a fresh set. -/
def date_filtered (s : HypSet τ) (year : Int) : HypSet τ :=
  HypSet.ofList (s.hyps.filter fun h =>
    match h.reference.year? with
    | none => true
    | some y => y ≤ year)

/-- The year walk of the earliest-date strategy (source lines 250-259):
`fuel` counts the years left to try, `num` is the size of the previously
tried filtered set (0 initially). -/
def date_loop (interp : τ → Hyp τ → Hyp τ) (k l : ℚ) (s : HypSet τ) :
    Int → ℕ → ℕ → Except Err (Option (Hyp τ))
  | _, 0, _ => .ok none
  | year, fuel + 1, num =>
      let hyps := date_filtered s year
      if hyps.size = num then date_loop interp k l s (year + 1) fuel num
      else
        match (find_proof interp k l hyps true).1 with
        | .error e => .error e
        | .ok (some h) => .ok (some h)
        | .ok none => date_loop interp k l s (year + 1) fuel hyps.size

/-- `find_best_proof(k, l, hypotheses, method)`. -/
def find_best_proof (interp : τ → Hyp τ → Hyp τ) (k l : ℚ) (s : HypSet τ)
    (method : Proof_Optimization_Method) :
    Except Err (Option (Hyp τ)) × HypSet τ :=
  match method with
  | .DATE =>
      let years := s.hyps.filterMap fun h => h.reference.year?
      match years.min?, years.max? with
      | some fromY, some toY =>
          (date_loop interp k l s fromY (toY - fromY + 1).toNat 0, s)
      | _, _ => (.error .valueErr, s)
  | .COMPLEXITY => find_proof interp k l s true
  | .NONE =>
      -- Source lines 269-273 augment the copy and compute the hull, then
      -- fall off the end of the function: the implicit return value is
      -- `None`, the same value as the ordinary "no result".
      match augmentedSet interp s with
      | .error e => (.error e, s)
      | .ok s2 =>
          let r := compute_convex_hull s2
          let caller := callerView s r.2
          match r.1 with
          | .error e => (.error e, caller)
          | .ok _ => (.ok none, caller)
  | .other _ => (.error .notImpl, s)

/-! ## Observers

Projections of run results used to state properties; hypotheses contain
function-valued payloads, so results are compared through these decidable
observations. -/

/-- The `(k, l)` coordinate list of a normally-returned hypothesis list. -/
def runKeys : Except Err (List (Hyp τ)) → Option (List Pt)
  | .ok l => some (l.map hypCoord)
  | .error _ => none

/-- The exception class of a run, if it raised. -/
def runErr : Except Err α → Option Err
  | .ok _ => none
  | .error e => some e

/-- Whether a run returned the empty list normally. -/
def runOkNil : Except Err (List α) → Bool
  | .ok [] => true
  | _ => false

/-- Whether a search returned the explicit "no result" value `None`. -/
def isOkNone : Except Err (Option α) → Bool
  | .ok none => true
  | _ => false

/-- The number of hypotheses of a normally-returned list. -/
def runLen : Except Err (List α) → Option ℕ
  | .ok l => some l.length
  | .error _ => none

/-! ## Concrete instances used by witnesses and counterexamples -/

/-- The trivial transform-code interpretation for witnesses: `τ` is `Unit`
and the registered family is empty or inert. -/
def interp0 : Unit → Hyp Unit → Hyp Unit := fun _ h => h

/-- A single β-bound hypothesis: the constant piece β ≤ 1/4 on [0, 1/2]. -/
def betaHyp : Hyp Unit :=
  Hyp.mk "beta piece" (.beta ⟨0, 1/2, fun _ => 1/4, by norm_num, by norm_num⟩)
    "" .trivialRef []

/-- A set holding only `betaHyp`. -/
def SB : HypSet Unit := ⟨[betaHyp], none, false⟩

/-- A set holding `betaHyp` together with the literature exponent pair
`(0, 1/4)` — exactly the key the converter derives from the β-bound. -/
def SB3 : HypSet Unit := ⟨[betaHyp, literature_exp_pair 0 (1/4) (.lit "X" 1950)], none, false⟩

/-- A set holding only the trivial exponent pair, with an empty cache. -/
def STriv : HypSet Unit := ⟨[trivial_exp_pair], none, false⟩

/-- Three collinear literature exponent pairs (on the line k + l = 1). -/
def SColl : HypSet Unit :=
  ⟨[literature_exp_pair 0 1 (.lit "A" 1900),
    literature_exp_pair (1/8) (7/8) (.lit "B" 1901),
    literature_exp_pair (1/4) (3/4) (.lit "C" 1902)], none, false⟩

/-- Three non-collinear exponent pairs all published in 1900. -/
def S1900 : HypSet Unit :=
  ⟨[literature_exp_pair 0 1 (.lit "A" 1900),
    literature_exp_pair (1/2) (1/2) (.lit "B" 1900),
    literature_exp_pair (1/6) (2/3) (.lit "C" 1900)], none, false⟩

/-- The earliest-date search over `S1900` for the target `(1/4, 3/4)`. -/
def C9run : Except Err (Option (Hyp Unit)) :=
  (find_best_proof interp0 (1/4) (3/4) S1900 .DATE).1

/-- The hypothesis returned by `C9run`. -/
def C9hyp : Hyp Unit :=
  match C9run with
  | .ok (some h) => h
  | _ => trivial_exp_pair

/-- The first cited dependency of `C9hyp`. -/
def C9dep0 : Hyp Unit :=
  match C9hyp.dependencies.get? 0 with
  | some d => d
  | none => trivial_exp_pair

/-- The hull of the augmented `S1900` (for the `C6` witness). -/
def C6verts : List (Hyp Unit) :=
  match augmentedSet interp0 S1900 with
  | .ok s2 =>
      match (compute_convex_hull s2).1 with
      | .ok v => v
      | .error _ => []
  | .error _ => []

/-- The optimized search over `S1900` for the target `(1/4, 3/4)`. -/
def C6run : Except Err (Option (Hyp Unit)) :=
  (find_proof interp0 (1/4) (3/4) S1900 true).1

/-- The hypothesis returned by `C6run`. -/
def C6hyp : Hyp Unit :=
  match C6run with
  | .ok (some h) => h
  | _ => trivial_exp_pair

/-- A set with a single dated exponent pair (a genuinely failing
earliest-date search for a far-away target). -/
def SDate : HypSet Unit := ⟨[literature_exp_pair 0 1 (.lit "A" 1900)], none, false⟩

/-! ## Lemmas about the geometric primitives -/

theorem lexLe_total : Total lexLe := by
  intro p q
  unfold lexLe
  rcases lt_trichotomy p.1 q.1 with h | h | h
  · exact Or.inl (Or.inl h)
  · rcases le_total p.2 q.2 with h2 | h2
    · exact Or.inl (Or.inr ⟨h, h2⟩)
    · exact Or.inr (Or.inr ⟨h.symm, h2⟩)
  · exact Or.inr (Or.inl h)

theorem lexLt_of_lexLe_of_ne {p q : Pt} (h : lexLe p q) (hne : p ≠ q) :
    lexLt p q := by
  rcases h with h | ⟨h1, h2⟩
  · exact Or.inl h
  · refine Or.inr ⟨h1, lt_of_le_of_ne h2 ?_⟩
    intro h3
    exact hne (Prod.ext h1 h3)

theorem lexLt_asymm {p q : Pt} (h : lexLt p q) : ¬ lexLt q p := by
  rcases h with h | ⟨h1, h2⟩ <;> rintro (h3 | ⟨h4, h5⟩) <;>
    first
      | exact absurd (h.trans h3) (lt_irrefl _)
      | exact absurd h (h4 ▸ lt_irrefl _)
      | exact absurd h3 (h1 ▸ lt_irrefl _)
      | exact absurd (h2.trans h5) (lt_irrefl _)

theorem lexLt_trans {p q r : Pt} (h : lexLt p q) (h2 : lexLt q r) :
    lexLt p r := by
  rcases h with h | ⟨ha, hb⟩ <;> rcases h2 with h2 | ⟨hc, hd⟩
  · exact Or.inl (h.trans h2)
  · exact Or.inl (hc ▸ h)
  · exact Or.inl (ha ▸ h2)
  · exact Or.inr ⟨ha.trans hc, hb.trans hd⟩

theorem lexLt_irrefl {p : Pt} : ¬ lexLt p p := by
  rintro (h | ⟨h1, h2⟩) <;> exact absurd rfl (ne_of_lt ‹_›)

theorem combos2_eq_nil {l : List α} (h : l.length < 2) : combos2 l = [] := by
  match l, h with
  | [], _ => rfl
  | [a], _ => rfl

theorem combos3_eq_nil {l : List α} (h : l.length < 3) : combos3 l = [] := by
  match l, h with
  | [], _ => rfl
  | [a], _ => rfl
  | [a, b], _ => rfl

theorem best_tri_none_of_short {τ : Type} (k l : ℚ) (verts : List (Hyp τ))
    (h : verts.length < 3) : best_tri k l verts = none := by
  unfold best_tri
  rw [combos3_eq_nil h]
  rfl

theorem combos2_length {l : List α} {t : List α} (h : t ∈ combos2 l) :
    t.length = 2 := by
  induction l with
  | nil => cases h
  | cons x xs ih =>
      rcases List.mem_append.mp h with h2 | h2
      · rcases List.mem_map.mp h2 with ⟨y, _, rfl⟩
        rfl
      · exact ih h2

theorem combos3_length {l : List α} {t : List α} (h : t ∈ combos3 l) :
    t.length = 3 := by
  induction l with
  | nil => cases h
  | cons x xs ih =>
      rcases List.mem_append.mp h with h2 | h2
      · rcases List.mem_map.mp h2 with ⟨yz, hyz, rfl⟩
        simp [combos2_length hyz]
      · exact ih h2

theorem get?_some_lt {l : List α} {i : ℕ} {a : α} (h : l.get? i = some a) :
    i < l.length := by
  by_contra h2
  rw [List.get?_eq_none.mpr (not_lt.mp h2)] at h
  exact Option.noConfusion h

theorem triStep_inv {τ : Type} (k l : ℚ) (L : List (List (Hyp τ)))
    (st : Option (ℕ × List (Hyp τ))) (t : List (Hyp τ))
    (hinv : TriInv k l L st) : TriInv k l (L ++ [t]) (triStep k l st t) := by
  by_cases hc : containsQ (t.map hypCoord) (k, l) = true
  · rcases st with _ | ⟨c0, t0⟩
    · -- first containing triangle
      simp only [triStep, if_pos hc]
      refine ⟨rfl, hc, ⟨L.length, ?_, ?_⟩, ?_⟩
      · rw [List.get?_append_right (le_refl _)]
        simp
      · intro j t2 hj hget hc2
        have ht2 : t2 ∈ L := List.get?_mem (by rwa [List.get?_append hj] at hget)
        exact absurd hc2 (by simp [hinv t2 ht2])
      · intro t2 ht2 hc2
        rcases List.mem_append.mp ht2 with h2 | h2
        · exact absurd (hinv t2 h2) (by simp [hc2])
        · rcases List.mem_singleton.mp h2 with rfl
          exact le_refl _
    · obtain ⟨hceq, hc0, ⟨i, hgi, hfirst⟩, hmin⟩ := hinv
      by_cases hlt : triComp t < c0
      · simp only [triStep, if_pos hc, if_pos hlt]
        refine ⟨rfl, hc, ⟨L.length, ?_, ?_⟩, ?_⟩
        · rw [List.get?_append_right (le_refl _)]
          simp
        · intro j t2 hj hget hc2
          have ht2 : t2 ∈ L := List.get?_mem (by rwa [List.get?_append hj] at hget)
          exact lt_of_lt_of_le hlt (hmin t2 ht2 hc2)
        · intro t2 ht2 hc2
          rcases List.mem_append.mp ht2 with h2 | h2
          · exact le_of_lt (lt_of_lt_of_le hlt (hmin t2 h2 hc2))
          · rcases List.mem_singleton.mp h2 with rfl
            exact le_refl _
      · simp only [triStep, if_pos hc, if_neg hlt]
        have hile : i < L.length := get?_some_lt hgi
        refine ⟨hceq, hc0, ⟨i, ?_, ?_⟩, ?_⟩
        · rwa [List.get?_append hile]
        · intro j t2 hj hget hc2
          exact hfirst j t2 hj (by rwa [List.get?_append (hj.trans hile)] at hget) hc2
        · intro t2 ht2 hc2
          rcases List.mem_append.mp ht2 with h2 | h2
          · exact hmin t2 h2 hc2
          · rcases List.mem_singleton.mp h2 with rfl
            exact not_lt.mp hlt
  · have hstep : triStep k l st t = st := by
      unfold triStep
      rw [if_neg hc]
    rw [hstep]
    rcases st with _ | ⟨c0, t0⟩
    · intro t2 ht2
      rcases List.mem_append.mp ht2 with h2 | h2
      · exact hinv t2 h2
      · rcases List.mem_singleton.mp h2 with rfl
        simpa using hc
    · obtain ⟨hceq, hc0, ⟨i, hgi, hfirst⟩, hmin⟩ := hinv
      have hile : i < L.length := get?_some_lt hgi
      refine ⟨hceq, hc0, ⟨i, ?_, ?_⟩, ?_⟩
      · rwa [List.get?_append hile]
      · intro j t2 hj hget hc2
        exact hfirst j t2 hj (by rwa [List.get?_append (hj.trans hile)] at hget) hc2
      · intro t2 ht2 hc2
        rcases List.mem_append.mp ht2 with h2 | h2
        · exact hmin t2 h2 hc2
        · rcases List.mem_singleton.mp h2 with rfl
          exact absurd hc2 (by simpa using hc)

theorem foldl_triStep_inv {τ : Type} (k l : ℚ) :
    ∀ (L pre : List (List (Hyp τ))) (st : Option (ℕ × List (Hyp τ))),
      TriInv k l pre st → TriInv k l (pre ++ L) (L.foldl (triStep k l) st)
  | [], pre, st, hinv => by rw [List.append_nil]; exact hinv
  | t :: L, pre, st, hinv => by
      have h2 := foldl_triStep_inv k l L (pre ++ [t]) (triStep k l st t)
        (triStep_inv k l pre st t hinv)
      simpa [List.append_assoc] using h2

theorem best_tri_spec {τ : Type} (k l : ℚ) (verts : List (Hyp τ))
    (tri : List (Hyp τ)) (h : best_tri k l verts = some tri) :
    TriInv k l (combos3 verts) (some (triComp tri, tri)) := by
  have hinv := foldl_triStep_inv k l (combos3 verts) [] none (by intro t ht; cases ht)
  rcases hfold : (combos3 verts).foldl (triStep k l) none with _ | ⟨c, t⟩
  · unfold best_tri at h
    rw [hfold] at h
    exact absurd h (by simp)
  · unfold best_tri at h
    rw [hfold] at h
    have ht : t = tri := by simpa using h
    subst ht
    rw [hfold] at hinv
    simp only [List.nil_append] at hinv
    obtain ⟨hceq, h1, h2, h3⟩ := hinv
    subst hceq
    exact ⟨rfl, h1, h2, h3⟩

/-! ## Frame lemmas: what proof search does to the caller's set -/

theorem find_proof_frame {τ : Type} (interp : τ → Hyp τ → Hyp τ) (k l : ℚ)
    (s : HypSet τ) (opt : Bool) :
    (find_proof interp k l s opt).2.hyps = s.hyps ∧
      (find_proof interp k l s opt).2.data_valid = s.data_valid := by
  unfold find_proof
  rcases augmentedSet interp s with e | s2
  · exact ⟨rfl, rfl⟩
  · simp only
    split
    · exact ⟨rfl, rfl⟩
    · rcases h : (compute_convex_hull s2).1 with e | verts <;> simp only [h] <;>
        exact ⟨rfl, rfl⟩

/-- The first component of `find_proof` on the path that reaches the
containment test. -/
theorem find_proof_fst_eq {τ : Type} (interp : τ → Hyp τ → Hyp τ) (k l : ℚ)
    (s s2 : HypSet τ) (verts : List (Hyp τ)) (opt : Bool)
    (haug : augmentedSet interp s = .ok s2)
    (hne : (s2.listHyps "Exponent pair").length ≠ 0)
    (hhull : (compute_convex_hull s2).1 = .ok verts) :
    (find_proof interp k l s opt).1 = hull_cite k l verts opt := by
  unfold find_proof
  simp only [haug, if_neg hne, hhull]

/-- `hull_cite` yields the "no result" value exactly when the containment
test fails. -/
theorem hull_cite_ok_none_iff {τ : Type} (k l : ℚ) (verts : List (Hyp τ))
    (opt : Bool) :
    hull_cite k l verts opt = .ok none ↔
      containsQ (verts.map hypCoord) (k, l) = false := by
  unfold hull_cite
  by_cases hc : containsQ (verts.map hypCoord) (k, l) = true
  · rw [if_pos hc]
    constructor
    · intro hres
      rcases opt with _ | _
      · simp only [Bool.false_eq_true, if_false] at hres
        exact absurd hres (by simp)
      · simp only [if_true] at hres
        rcases hb : best_tri k l verts with _ | tri <;> rw [hb] at hres <;>
          exact absurd hres (by simp)
    · intro hres
      rw [hres] at hc
      exact absurd hc (by simp)
  · rw [if_neg hc]
    exact ⟨fun _ => by simpa using hc, fun _ => rfl⟩

theorem find_best_proof_frame {τ : Type} (interp : τ → Hyp τ → Hyp τ)
    (k l : ℚ) (s : HypSet τ) (m : Proof_Optimization_Method) :
    (find_best_proof interp k l s m).2.hyps = s.hyps ∧
      (find_best_proof interp k l s m).2.data_valid = s.data_valid := by
  rcases m with _ | _ | _ | tag
  · unfold find_best_proof
    rcases augmentedSet interp s with e | s2
    · exact ⟨rfl, rfl⟩
    · simp only
      rcases h : (compute_convex_hull s2).1 with e | verts <;> simp only [h] <;>
        exact ⟨rfl, rfl⟩
  · unfold find_best_proof
    simp only
    rcases h1 : (s.hyps.filterMap fun h => h.reference.year?).min? with _ | y1 <;>
      rcases h2 : (s.hyps.filterMap fun h => h.reference.year?).max? with _ | y2 <;>
        simp only [h1, h2] <;> exact ⟨trivial, trivial⟩
  · exact find_proof_frame interp k l s true
  · exact ⟨rfl, rfl⟩

/-! ## Claim theorems -/

/-- Claim C1 (code bug): the source's own comment (line 176) and the design
document state that a non-degenerate hull edge with slope `m` and intercept
`c` yields the exponent pair `(c, m + c)`, but line 179 records the key
`(m, m + c)`.  On a single constant β-bound piece β ≤ 1/4 over [0, 1/2] the
non-degenerate edge has `m = 0`, `c = 1/4`: the converter records the pair
`(0, 1/4)` and not `(1/4, 1/4)` as documented. -/
theorem C1_beta_duality_key_code_bug :
    runKeys (beta_bounds_to_exponent_pairs interp0 SB) = some [(0, 1/4)] ∧
      runKeys (beta_bounds_to_exponent_pairs interp0 SB) ≠ some [(1/4, 1/4)] :=
  ⟨by decide, by decide⟩

/-- Claim C3 (code bug): when a derived key is already among the known
exponent pairs, line 184 executes `known_eps[key]` where `known_eps` is a
`set` (line 165), raising `TypeError` instead of reusing the existing
hypothesis: the converter does not return normally.  Here the β-bound piece
derives the key `(0, 1/4)`, which the set already knows. -/
theorem C3_known_key_reuse_code_bug :
    runErr (beta_bounds_to_exponent_pairs interp0 SB3) = some .typeErr ∧
      SB3.hasPairKey (0, 1/4) = true :=
  ⟨by decide, by decide⟩

/-- Claim C2, counterexample: a search over a one-pair set with an empty
cache returns normally (`None`, target outside the hull), yet stores the
recomputed hull through the shared `data` dictionary: the caller's `data`
holds a `'convex_hull'` entry after the call that it did not hold before. -/
theorem C2_shared_cache_mutated_counterexample :
    STriv.dataHull.isSome = false ∧
      isOkNone (find_proof interp0 (1/2) (1/2) STriv true).1 = true ∧
      ((find_proof interp0 (1/2) (1/2) STriv true).2.dataHull).isSome = true :=
  ⟨by decide, by decide, by decide⟩

/-- Claim C2 (amended): a search (`find_proof` or `find_best_proof`) leaves
the caller's hypothesis membership and its `data_valid` flag unchanged, but
not the auxiliary cache `data`, which is shared with the internal shallow
copy and may gain the recomputed `'convex_hull'` entry. -/
theorem C2_search_preserves_membership_and_flag {τ : Type}
    (interp : τ → Hyp τ → Hyp τ) (k l : ℚ) (s : HypSet τ) (opt : Bool)
    (m : Proof_Optimization_Method) :
    ((find_proof interp k l s opt).2.hyps = s.hyps ∧
      (find_proof interp k l s opt).2.data_valid = s.data_valid) ∧
    ((find_best_proof interp k l s m).2.hyps = s.hyps ∧
      (find_best_proof interp k l s m).2.data_valid = s.data_valid) :=
  ⟨find_proof_frame interp k l s opt, find_best_proof_frame interp k l s m⟩

/-- Claim C4, counterexample: on a set with one exponent pair and an invalid
cache, the hull-cache routine stores the degenerate "hull" (the full pair
list) but leaves the validity flag false — the flag is not set in the
fewer-than-3 case. -/
theorem C4_degenerate_flag_counterexample :
    STriv.data_valid = false ∧
      runLen (compute_convex_hull STriv).1 = some 1 ∧
      ((compute_convex_hull STriv).2.dataHull).isSome = true ∧
      (compute_convex_hull STriv).2.data_valid = false :=
  ⟨by decide, by decide, by decide, by decide⟩

/-- Claim C4 (amended): the hull-cache routine returns the stored hull
unchanged whenever the flag is valid and a hull is stored; otherwise it
computes the result (the full pair list when fewer than 3 exponent pairs
exist, else the hull-vertex hypotheses), stores it in the cache, and sets
the validity flag only in the non-degenerate branch — in the degenerate
fewer-than-3 case the flag keeps its previous value. -/
theorem C4_hull_cache_behavior {τ : Type} (s : HypSet τ) :
    (∀ v, s.data_valid = true → s.dataHull = some v →
      compute_convex_hull s = (.ok v, s)) ∧
    (s.data_valid = false ∨ s.dataHull = none →
      ((s.listHyps "Exponent pair").length < 3 →
        compute_convex_hull s =
          (.ok (s.listHyps "Exponent pair"),
            { s with dataHull := some (s.listHyps "Exponent pair") })) ∧
      (∀ verts, (compute_convex_hull s).1 = .ok verts →
        3 ≤ (s.listHyps "Exponent pair").length →
        (compute_convex_hull s).2 =
          { s with dataHull := some verts, data_valid := true })) := by
  constructor
  · intro v hval hst
    unfold compute_convex_hull
    rw [hval, hst]
  · intro hinv
    have hno : ¬ (s.data_valid = true ∧ ∃ v, s.dataHull = some v) := by
      rcases hinv with h | h
      · rintro ⟨h2, _⟩; rw [h] at h2; exact Bool.false_ne_true h2
      · rintro ⟨_, v, h2⟩; rw [h] at h2; exact Option.noConfusion h2
    constructor
    · intro hlt
      unfold compute_convex_hull
      rcases hv : s.data_valid with _ | _
      · rcases hh : s.dataHull with _ | v <;> simp only [if_pos hlt]
      · rcases hh : s.dataHull with _ | v
        · simp only [if_pos hlt]
        · exact absurd ⟨hv, v, hh⟩ hno
    · intro verts hok h3
      have hlt : ¬ (s.listHyps "Exponent pair").length < 3 := not_lt.mpr h3
      unfold compute_convex_hull at hok ⊢
      rcases hv : s.data_valid with _ | _ <;> rcases hh : s.dataHull with _ | v <;>
        simp only [hv, hh] at hok ⊢
      on_goal 4 => exact absurd ⟨hv, v, hh⟩ hno
      all_goals
        rw [if_neg hlt] at hok ⊢
        rcases hx : convexHullIdx ((s.listHyps "Exponent pair").map hypCoord) with e | vidx <;>
          simp only [hx] at hok ⊢
        · exact absurd hok (by simp)
        · rcases hy : selectIdx (s.listHyps "Exponent pair") vidx with e | verts2 <;>
            simp only [hy] at hok ⊢
          · exact absurd hok (by simp)
          · simp only [Except.ok.injEq] at hok
            rw [hok]

/-- Claim C4 witness: the amended behavior applied to the one-pair set with
an invalid cache: the degenerate hull is stored, the flag keeps its value. -/
theorem C4_hull_cache_behavior_witness :
    compute_convex_hull STriv =
      (.ok (STriv.listHyps "Exponent pair"),
        { STriv with dataHull := some (STriv.listHyps "Exponent pair") }) :=
  ((C4_hull_cache_behavior STriv).2 (Or.inl (by decide))).1 (by decide)

/-- Claim C5, counterexample: on three collinear known pairs and a target
outside their hull (a structurally-insufficient input), `find_proof` does not
return the explicit "no result" value: the pruning step of the closure engine
hands the collinear points to `ConvexHull`, which raises `QhullError`. -/
theorem C5_collinear_crash_counterexample :
    runErr (find_proof interp0 (1/2) (1/2) SColl true).1 = some .qhull ∧
      containsQ ((SColl.listHyps "Exponent pair").map hypCoord) (1/2, 1/2) = false :=
  ⟨by decide, by decide⟩

/-- Claim C5 (amended): provided the augmentation stage completes without
raising, `find_proof` returns the explicit "no result" value exactly when the
augmented set contains zero exponent pairs or the target `(k, l)` fails the
boundary-inclusive containment test against the computed hull. -/
theorem C5_no_result_cases {τ : Type} (interp : τ → Hyp τ → Hyp τ)
    (k l : ℚ) (opt : Bool) (s s2 : HypSet τ)
    (haug : augmentedSet interp s = .ok s2) :
    (find_proof interp k l s opt).1 = .ok none ↔
      ((s2.listHyps "Exponent pair").length = 0 ∨
        ∃ verts, (compute_convex_hull s2).1 = .ok verts ∧
          containsQ (verts.map hypCoord) (k, l) = false) := by
  by_cases hz : (s2.listHyps "Exponent pair").length = 0
  · have hres : (find_proof interp k l s opt).1 = .ok none := by
      unfold find_proof
      simp only [haug, if_pos hz]
    exact ⟨fun _ => Or.inl hz, fun _ => hres⟩
  · constructor
    · intro hres
      rcases hv : (compute_convex_hull s2).1 with e | verts
      · have : (find_proof interp k l s opt).1 = .error e := by
          unfold find_proof
          simp only [haug, if_neg hz, hv]
        rw [this] at hres
        exact absurd hres (by simp)
      · rw [find_proof_fst_eq interp k l s s2 verts opt haug hz hv] at hres
        exact Or.inr ⟨verts, rfl, (hull_cite_ok_none_iff k l verts opt).mp hres⟩
    · rintro (h | ⟨verts, hv, hc⟩)
      · exact absurd h hz
      · rw [find_proof_fst_eq interp k l s s2 verts opt haug hz hv]
        exact (hull_cite_ok_none_iff k l verts opt).mpr hc

/-- Claim C5 witness: the amended equivalence applied to the one-pair set
and the outside target (1/2, 1/2): the search returns "no result". -/
theorem C5_no_result_cases_witness :
    (find_proof interp0 (1/2) (1/2) STriv true).1 = .ok none :=
  (C5_no_result_cases interp0 (1/2) (1/2) true STriv STriv rfl).mpr
    (Or.inr ⟨STriv.listHyps "Exponent pair", rfl, by decide⟩)

/-! ## Structural lemmas about the monotone chain -/

theorem chainStep_shape (p : Pt) :
    ∀ st : List Pt, ∃ st2, st2 <:+ st ∧ chainStep p st = p :: st2 ∧
      (st ≠ [] → st2 ≠ [] ∧ st2.getLast? = st.getLast?)
  | [] => ⟨[], List.suffix_refl _, rfl, fun h => absurd rfl h⟩
  | [a] => ⟨[a], List.suffix_refl _, rfl, fun _ => ⟨by simp, rfl⟩⟩
  | b :: a :: rest => by
      by_cases hc : cross a b p ≤ 0
      · obtain ⟨st2, hsuf, heq, hlast⟩ := chainStep_shape p (a :: rest)
        refine ⟨st2, hsuf.trans (List.suffix_cons b (a :: rest)), ?_, ?_⟩
        · have hred : chainStep p (b :: a :: rest) =
              if cross a b p ≤ 0 then chainStep p (a :: rest)
              else p :: b :: a :: rest := rfl
          rw [hred, if_pos hc, heq]
        · intro _
          obtain ⟨hne, hl⟩ := hlast (by simp)
          exact ⟨hne, by rw [hl, List.getLast?_cons_cons]⟩
      · refine ⟨b :: a :: rest, List.suffix_refl _, ?_, fun _ => ⟨by simp, rfl⟩⟩
        have hred : chainStep p (b :: a :: rest) =
            if cross a b p ≤ 0 then chainStep p (a :: rest)
            else p :: b :: a :: rest := rfl
        rw [hred, if_neg hc]

theorem chain_sublist_aux :
    ∀ (l : List Pt) (st : List Pt),
      List.Sublist ((l.foldl (fun st p => chainStep p st) st).reverse)
        (st.reverse ++ l)
  | [], st => by simp
  | p :: l, st => by
      obtain ⟨st2, hsuf, heq, -⟩ := chainStep_shape p st
      have h1 := chain_sublist_aux l (chainStep p st)
      have hrev : List.Sublist st2.reverse st.reverse := by
        rw [← List.reverse_reverse st2] at hsuf
        rw [← List.reverse_reverse st] at hsuf
        exact (List.reverse_suffix.mp hsuf).sublist
      have h2 : List.Sublist (chainStep p st).reverse (st.reverse ++ [p]) := by
        rw [heq, List.reverse_cons]
        exact hrev.append (List.Sublist.refl [p])
      have h3 : List.Sublist ((chainStep p st).reverse ++ l)
          (st.reverse ++ (p :: l)) := by
        have h4 := h2.append (List.Sublist.refl l)
        simpa [List.append_assoc] using h4
      exact h1.trans h3

theorem chain_sublist (pts : List Pt) : List.Sublist (chain pts) pts := by
  have h := chain_sublist_aux pts []
  simpa [chain] using h

theorem foldl_chain_top :
    ∀ (l : List Pt) (st : List Pt), l ≠ [] →
      (l.foldl (fun st p => chainStep p st) st).head? = l.getLast?
  | [], _, hl => absurd rfl hl
  | [p], st, _ => by
      obtain ⟨st2, -, heq, -⟩ := chainStep_shape p st
      show (chainStep p st).head? = _
      rw [heq]
      rfl
  | p :: q :: l, st, _ => by
      have h := foldl_chain_top (q :: l) (chainStep p st) (by simp)
      simpa using h

theorem foldl_chain_bottom :
    ∀ (l : List Pt) (st : List Pt), st ≠ [] →
      (l.foldl (fun st p => chainStep p st) st).getLast? = st.getLast?
  | [], st, _ => rfl
  | p :: l, st, hst => by
      obtain ⟨st2, -, heq, hlast⟩ := chainStep_shape p st
      obtain ⟨hne, hl⟩ := hlast hst
      have h := foldl_chain_bottom l (chainStep p st) (by rw [heq]; simp)
      have h2 : (chainStep p st).getLast? = st.getLast? := by
        rw [heq]
        rcases st2 with _ | ⟨x, xs⟩
        · exact absurd rfl hne
        · rw [List.getLast?_cons_cons, hl]
      show (l.foldl (fun st p => chainStep p st) (chainStep p st)).getLast? = _
      rw [h, h2]

theorem chain_head (pts : List Pt) (h : pts ≠ []) :
    (chain pts).head? = pts.head? := by
  rcases pts with _ | ⟨p, rest⟩
  · exact absurd rfl h
  · show ((List.foldl (fun st p => chainStep p st) [] (p :: rest)).reverse).head? = _
    rw [List.head?_reverse]
    have hstep : List.foldl (fun st p => chainStep p st) [] (p :: rest) =
        List.foldl (fun st p => chainStep p st) [p] rest := rfl
    rw [hstep, foldl_chain_bottom rest [p] (by simp)]
    rfl

theorem chain_last (pts : List Pt) (h : pts ≠ []) :
    (chain pts).getLast? = pts.getLast? := by
  show ((List.foldl (fun st p => chainStep p st) [] pts).reverse).getLast? = _
  rw [List.getLast?_reverse]
  exact foldl_chain_top pts [] h

theorem chain_ne_nil (pts : List Pt) (h : pts ≠ []) : chain pts ≠ [] := by
  intro h2
  have h3 := chain_head pts h
  rw [h2] at h3
  rcases pts with _ | ⟨p, rest⟩
  · exact absurd rfl h
  · exact Option.noConfusion h3

/-- The strict-turn invariant of a stack (most recent entry first): every
three consecutive entries, read chronologically, make a strict left turn. -/
def StackCCW (st : List Pt) : Prop :=
  ∀ b a o, [b, a, o] <:+: st → 0 < cross o a b

theorem stackCCW_of_suffix {st st2 : List Pt} (hsuf : st2 <:+ st)
    (h : StackCCW st) : StackCCW st2 :=
  fun b a o hinf => h b a o (hinf.trans hsuf.isInfix)

theorem chainStep_ccw (p : Pt) :
    ∀ st : List Pt, StackCCW st → StackCCW (chainStep p st)
  | [], _ => by
      intro b a o hinf
      have := hinf.length_le
      simp [chainStep] at this
  | [x], _ => by
      intro b a o hinf
      have := hinf.length_le
      simp [chainStep] at this
  | b0 :: a0 :: rest, hccw => by
      by_cases hc : cross a0 b0 p ≤ 0
      · have hred : chainStep p (b0 :: a0 :: rest) = chainStep p (a0 :: rest) := by
          have : chainStep p (b0 :: a0 :: rest) =
              if cross a0 b0 p ≤ 0 then chainStep p (a0 :: rest)
              else p :: b0 :: a0 :: rest := rfl
          rw [this, if_pos hc]
        rw [hred]
        exact chainStep_ccw p (a0 :: rest)
          (stackCCW_of_suffix (List.suffix_cons b0 (a0 :: rest)) hccw)
      · have hred : chainStep p (b0 :: a0 :: rest) = p :: b0 :: a0 :: rest := by
          have : chainStep p (b0 :: a0 :: rest) =
              if cross a0 b0 p ≤ 0 then chainStep p (a0 :: rest)
              else p :: b0 :: a0 :: rest := rfl
          rw [this, if_neg hc]
        rw [hred]
        intro b a o hinf
        rcases List.infix_cons_iff.mp hinf with hpre | hinf2
        · obtain ⟨t, ht⟩ := hpre
          simp only [List.cons_append, List.cons.injEq] at ht
          obtain ⟨rfl, rfl, rfl, -⟩ := ht
          exact lt_of_not_le hc
        · exact hccw b a o hinf2

theorem chain_ccw (pts : List Pt) :
    ∀ o a b, [o, a, b] <:+: chain pts → 0 < cross o a b := by
  have hstack : StackCCW (pts.foldl (fun st p => chainStep p st) []) := by
    have haux : ∀ (l : List Pt) (st : List Pt), StackCCW st →
        StackCCW (l.foldl (fun st p => chainStep p st) st) := by
      intro l
      induction l with
      | nil => exact fun st h => h
      | cons p l ih => exact fun st h => ih (chainStep p st) (chainStep_ccw p st h)
    exact haux pts [] (by intro b a o hinf; have := hinf.length_le; simp at this)
  intro o a b hinf
  have h2 : [b, a, o] <:+: pts.foldl (fun st p => chainStep p st) [] := by
    have h3 : List.reverse [b, a, o] <:+:
        List.reverse (pts.foldl (fun st p => chainStep p st) []) := by
      simpa [chain] using hinf
    exact List.reverse_infix.mp h3
  exact hstack b a o h2

/-- Turning consecutive positions into an infix run. -/
theorem infix_of_get?_pair {L : List Pt} {i : ℕ} {p q : Pt}
    (hp : L.get? i = some p) (hq : L.get? (i + 1) = some q) :
    [p, q] <:+: L := by
  have hip : i < L.length := get?_some_lt hp
  have hiq : i + 1 < L.length := get?_some_lt hq
  have h1 : L.drop i = p :: L.drop (i + 1) := by
    rw [List.drop_eq_getElem_cons hip]
    congr 1
    have := List.get?_eq_getElem? L i
    rw [this, List.getElem?_eq_getElem hip] at hp
    exact (Option.some.injEq _ _ ▸ hp).symm ▸ rfl
  have h2 : L.drop (i + 1) = q :: L.drop (i + 2) := by
    rw [List.drop_eq_getElem_cons hiq]
    congr 1
    have := List.get?_eq_getElem? L (i + 1)
    rw [this, List.getElem?_eq_getElem hiq] at hq
    exact (Option.some.injEq _ _ ▸ hq).symm ▸ rfl
  have hpre : [p, q] <+: L.drop i := by
    rw [h1, h2]
    exact ⟨L.drop (i + 2), rfl⟩
  exact hpre.isInfix.trans (L.drop_suffix i).isInfix

theorem infix_of_get?_triple {L : List Pt} {i : ℕ} {o a b : Pt}
    (ho : L.get? i = some o) (ha : L.get? (i + 1) = some a)
    (hb : L.get? (i + 2) = some b) : [o, a, b] <:+: L := by
  have hio : i < L.length := get?_some_lt ho
  have hia : i + 1 < L.length := get?_some_lt ha
  have hib : i + 2 < L.length := get?_some_lt hb
  have h1 : L.drop i = o :: L.drop (i + 1) := by
    rw [List.drop_eq_getElem_cons hio]
    congr 1
    have := List.get?_eq_getElem? L i
    rw [this, List.getElem?_eq_getElem hio] at ho
    exact (Option.some.injEq _ _ ▸ ho).symm ▸ rfl
  have h2 : L.drop (i + 1) = a :: L.drop (i + 2) := by
    rw [List.drop_eq_getElem_cons hia]
    congr 1
    have := List.get?_eq_getElem? L (i + 1)
    rw [this, List.getElem?_eq_getElem hia] at ha
    exact (Option.some.injEq _ _ ▸ ha).symm ▸ rfl
  have h3 : L.drop (i + 2) = b :: L.drop (i + 3) := by
    rw [List.drop_eq_getElem_cons hib]
    congr 1
    have := List.get?_eq_getElem? L (i + 2)
    rw [this, List.getElem?_eq_getElem hib] at hb
    exact (Option.some.injEq _ _ ▸ hb).symm ▸ rfl
  have hpre : [o, a, b] <+: L.drop i := by
    rw [h1, h2, h3]
    exact ⟨L.drop (i + 3), rfl⟩
  exact hpre.isInfix.trans (L.drop_suffix i).isInfix

theorem phi_phi (p : Pt) : phi (phi p) = p := by
  unfold phi
  simp

theorem phi_cross (o a b : Pt) : cross (phi o) (phi a) (phi b) = cross o a b := by
  unfold phi cross
  ring

theorem phi_deg {p q : Pt} (h : degEdge p q) : degEdge (phi p) (phi q) := by
  unfold degEdge at h ⊢
  unfold phi
  rcases h with ⟨h1, h2⟩ | ⟨h1, h2⟩ | ⟨h1, h2⟩
  · exact Or.inl ⟨by simp [h1], by simp [h2]⟩
  · refine Or.inr (Or.inr ⟨?_, ?_⟩) <;> simp [h1, h2]
  · refine Or.inr (Or.inl ⟨?_, ?_⟩) <;> simp [h1, h2]

theorem phi_lexLt {p q : Pt} (h : lexLt p q) : lexLt (phi q) (phi p) := by
  unfold lexLt at h ⊢
  unfold phi
  rcases h with h | ⟨h1, h2⟩
  · exact Or.inl (by linarith)
  · exact Or.inr ⟨by rw [h1], by linarith⟩

theorem map_phi_phi (l : List Pt) : (l.map phi).map phi = l := by
  rw [List.map_map]
  have h : (phi ∘ phi) = id := funext fun p => phi_phi p
  rw [h, List.map_id]

/-- The sorted distinct point list underlying the hull computation. -/
theorem srt_pairwise_lexLt (pts : List Pt) :
    ((pts.dedup).insertionSort lexLe).Pairwise lexLt := by
  have hsorted : ((pts.dedup).insertionSort lexLe).Pairwise lexLe :=
    List.sorted_insertionSort lexLe pts.dedup
  have hnd : ((pts.dedup).insertionSort lexLe).Nodup :=
    (List.perm_insertionSort lexLe pts.dedup).nodup_iff.mpr pts.nodup_dedup
  have hand := hsorted.and hnd
  exact hand.imp fun h => lexLt_of_lexLe_of_ne h.1 h.2

theorem srt_mem_iff (pts : List Pt) (p : Pt) :
    p ∈ (pts.dedup).insertionSort lexLe ↔ p ∈ pts := by
  rw [List.mem_insertionSort, List.mem_dedup]

/-- The head of the sorted list is the lexicographic minimum; with `(0,0)`
present and all abscissae nonnegative it sits on the α = 0 column at or
below β = 0. -/
theorem srt_head_bounds (pts : List Pt) (h00 : ((0 : ℚ), (0 : ℚ)) ∈ pts)
    (hx : ∀ p ∈ pts, 0 ≤ p.1 ∧ p.1 ≤ 1/2) :
    ∃ h0, ((pts.dedup).insertionSort lexLe).head? = some h0 ∧
      h0.1 = 0 ∧ h0.2 ≤ 0 := by
  have hmem : ((0 : ℚ), (0 : ℚ)) ∈ (pts.dedup).insertionSort lexLe :=
    (srt_mem_iff pts _).mpr h00
  rcases hsrt : (pts.dedup).insertionSort lexLe with _ | ⟨h0, rest⟩
  · rw [hsrt] at hmem
    cases hmem
  · refine ⟨h0, rfl, ?_⟩
    have hsorted : (h0 :: rest).Pairwise lexLe := by
      rw [← hsrt]
      exact List.sorted_insertionSort lexLe pts.dedup
    have hb : 0 ≤ h0.1 ∧ h0.1 ≤ 1/2 := by
      refine hx h0 ?_
      rw [← srt_mem_iff pts h0, hsrt]
      simp
    rw [hsrt] at hmem
    rcases List.mem_cons.mp hmem with heq | hmem2
    · rw [← heq]
      exact ⟨rfl, le_refl 0⟩
    · have hle : lexLe h0 ((0 : ℚ), (0 : ℚ)) :=
        (List.pairwise_cons.mp hsorted).1 _ hmem2
      rcases hle with hlt | ⟨heq, hle2⟩
      · simp only at hlt
        constructor <;> [linarith [hb.1]; linarith [hb.1]]
      · exact ⟨heq, hle2⟩

/-- The last of the sorted list is the lexicographic maximum; with `(1/2,0)`
present and all abscissae at most 1/2 it sits on the α = 1/2 column at or
above β = 0. -/
theorem srt_last_bounds (pts : List Pt) (h120 : ((1 : ℚ)/2, (0 : ℚ)) ∈ pts)
    (hx : ∀ p ∈ pts, 0 ≤ p.1 ∧ p.1 ≤ 1/2) :
    ∃ hN, ((pts.dedup).insertionSort lexLe).getLast? = some hN ∧
      hN.1 = 1/2 ∧ 0 ≤ hN.2 := by
  have hmem : ((1 : ℚ)/2, (0 : ℚ)) ∈ (pts.dedup).insertionSort lexLe :=
    (srt_mem_iff pts _).mpr h120
  have hne : (pts.dedup).insertionSort lexLe ≠ [] := by
    intro h
    rw [h] at hmem
    cases hmem
  rcases hlastq : ((pts.dedup).insertionSort lexLe).getLast? with _ | hN
  · rw [List.getLast?_eq_none_iff] at hlastq
    exact absurd hlastq hne
  · refine ⟨hN, rfl, ?_⟩
    have hNmem : hN ∈ (pts.dedup).insertionSort lexLe :=
      List.mem_of_getLast?_eq_some hlastq
    have hb : 0 ≤ hN.1 ∧ hN.1 ≤ 1/2 := hx hN ((srt_mem_iff pts hN).mp hNmem)
    by_cases heq : ((1 : ℚ)/2, (0 : ℚ)) = hN
    · rw [← heq]
      exact ⟨rfl, le_refl 0⟩
    · have hpw := srt_pairwise_lexLt pts
      have hlt : lexLt ((1 : ℚ)/2, (0 : ℚ)) hN := by
        obtain ⟨l0, hl0⟩ := List.getLast?_eq_some_iff.mp hlastq
        rw [hl0] at hmem hpw
        rcases List.mem_append.mp hmem with hm | hm
        · have := List.pairwise_append.mp hpw
          exact this.2.2 _ hm hN (by simp)
        · rcases List.mem_singleton.mp hm with h
          exact absurd h heq
      rcases hlt with hlt | ⟨heq2, hlt2⟩
      · simp only at hlt
        constructor <;> [linarith [hb.2]; linarith [hb.2]]
      · exact ⟨heq2.symm, le_of_lt hlt2⟩

/-- The shape of a half hull all of whose edges are degenerate: a strictly
increasing chain with strict left turns from the α = 0 column to the
α = 1/2 column, each edge along β = 0, α = 0 or α = 1/2, is the single
edge from (0,0) to (1/2,0), possibly extended by one climb up α = 1/2. -/
theorem chain_shape (L : List Pt)
    (hpw : L.Pairwise lexLt)
    (htrip : ∀ o a b : Pt, [o, a, b] <:+: L → 0 < cross o a b)
    (hdeg : ∀ p q : Pt, [p, q] <:+: L → degEdge p q)
    (hhead : ∃ h0, L.head? = some h0 ∧ h0.1 = 0 ∧ h0.2 ≤ 0)
    (hlast : ∃ hN, L.getLast? = some hN ∧ hN.1 = 1/2 ∧ 0 ≤ hN.2) :
    L = [((0 : ℚ), (0 : ℚ)), (1/2, 0)] ∨
      ∃ y : ℚ, 0 < y ∧ L = [((0 : ℚ), (0 : ℚ)), (1/2, 0), (1/2, y)] := by
  obtain ⟨h0, hh0, hx0, hy0⟩ := hhead
  obtain ⟨hN, hhN, hxN, hyN⟩ := hlast
  rcases L with _ | ⟨p, L1⟩
  · exact absurd hh0 (by simp)
  have hph : p = h0 := by
    rw [List.head?_cons] at hh0
    exact Option.some.inj hh0
  subst hph
  obtain ⟨p1, p2⟩ := p
  simp only at hx0 hy0
  subst hx0
  rcases L1 with _ | ⟨q, L2⟩
  · -- L = [p]
    have hpN : ((0 : ℚ), p2) = hN := by
      simpa using hhN
    rw [← hpN] at hxN
    simp only at hxN
    exact absurd hxN (by norm_num)
  · -- L = p :: q :: L2
    rw [List.pairwise_cons] at hpw
    have hpq : lexLt ((0 : ℚ), p2) q := hpw.1 q (by simp)
    have hdpq : degEdge ((0 : ℚ), p2) q :=
      hdeg _ q ⟨[], L2, by simp⟩
    obtain ⟨q1, q2⟩ := q
    rcases L2 with _ | ⟨r, L3⟩
    · -- L = [p, q]
      have hqN : ((q1 : ℚ), q2) = hN := by
        simpa using hhN
      rw [← hqN] at hxN hyN
      simp only at hxN hyN
      subst hxN
      rcases hdpq with ⟨hb1, hb2⟩ | ⟨ha1, ha2⟩ | ⟨hc1, hc2⟩
      · simp only at hb1 hb2
        subst hb1; subst hb2
        exact Or.inl rfl
      · simp only at ha2
        exact absurd ha2 (by norm_num)
      · simp only at hc1
        exact absurd hc1 (by norm_num)
    · -- L = p :: q :: r :: L3
      rw [List.pairwise_cons] at hpw
      have hqr : lexLt ((q1 : ℚ), q2) r := hpw.2.1 r (by simp)
      have hdqr : degEdge ((q1 : ℚ), q2) r :=
        hdeg _ r ⟨[((0 : ℚ), p2)], L3, by simp⟩
      have htpqr : 0 < cross ((0 : ℚ), p2) (q1, q2) r :=
        htrip _ _ r ⟨[], L3, by simp⟩
      obtain ⟨r1, r2⟩ := r
      rcases hdpq with ⟨hb1, hb2⟩ | ⟨ha1, ha2⟩ | ⟨hc1, hc2⟩
      · -- first edge along β = 0: p = (0,0), q = (q1, 0)
        simp only at hb1 hb2
        subst hb1; subst hb2
        have hq1pos : 0 < q1 := by
          rcases hpq with h | ⟨h1, h2⟩
          · simpa using h
          · simp only at h2
            exact absurd h2 (lt_irrefl _)
        rcases hdqr with ⟨hb1, hb2⟩ | ⟨ha1, ha2⟩ | ⟨hc1, hc2⟩
        · -- second edge along β = 0 too: collinear triple
          simp only at hb2
          subst hb2
          unfold cross at htpqr
          simp only at htpqr
          nlinarith [htpqr]
        · simp only at ha1
          exact absurd ha1 (by linarith)
        · -- second edge climbs α = 1/2
          simp only at hc1 hc2
          subst hc1; subst hc2
          have hr2pos : 0 < r2 := by
            rcases hqr with h | ⟨h1, h2⟩
            · simp only at h
              exact absurd h (lt_irrefl _)
            · simpa using h2
          rcases L3 with _ | ⟨t, L4⟩
          · exact Or.inr ⟨r2, hr2pos, rfl⟩
          · -- a fourth vertex is impossible
            rw [List.pairwise_cons] at hpw
            have hrt : lexLt ((1/2 : ℚ), r2) t := hpw.2.2.1 t (by simp)
            have hdrt : degEdge ((1/2 : ℚ), r2) t :=
              hdeg _ t ⟨[((0 : ℚ), (0 : ℚ)), ((1/2 : ℚ), (0 : ℚ))], L4, by simp⟩
            have htqrt : 0 < cross ((1/2 : ℚ), (0 : ℚ)) ((1/2 : ℚ), r2) t :=
              htrip _ _ t ⟨[((0 : ℚ), (0 : ℚ))], L4, by simp⟩
            obtain ⟨t1, t2⟩ := t
            rcases hdrt with ⟨hb1, hb2⟩ | ⟨ha1, ha2⟩ | ⟨hc1, hc2⟩
            · simp only at hb1
              exact absurd hb1 (by linarith)
            · simp only at ha1
              exact absurd ha1 (by norm_num)
            · simp only at hc2
              subst hc2
              unfold cross at htqrt
              simp only at htqrt
              nlinarith [htqrt]
      · -- first edge along α = 0
        simp only at ha1 ha2
        subst ha2
        rcases hdqr with ⟨hb1, hb2⟩ | ⟨ha1b, ha2b⟩ | ⟨hc1, hc2⟩
        · -- then an edge along β = 0
          simp only at hb1 hb2
          subst hb1; subst hb2
          have hp2neg : p2 < 0 := by
            rcases hpq with h | ⟨h1, h2⟩
            · simp only at h
              exact absurd h (lt_irrefl _)
            · simpa using h2
          have hr1pos : 0 < r1 := by
            rcases hqr with h | ⟨h1, h2⟩
            · simpa using h
            · simp only at h2
              exact absurd h2 (lt_irrefl _)
          unfold cross at htpqr
          simp only at htpqr
          nlinarith [htpqr]
        · -- three points on α = 0: collinear
          simp only at ha1b ha2b
          subst ha2b
          unfold cross at htpqr
          simp only at htpqr
          nlinarith [htpqr]
        · simp only at hc1
          exact absurd hc1 (by norm_num)
      · simp only at hc1
        exact absurd hc1 (by norm_num)

theorem betaMirror_extends {τ : Type} (interp : τ → Hyp τ → Hyp τ)
    (s : HypSet τ) (known_eps : List Pt) (h : Hyp τ) (all2 L : List (Hyp τ))
    (hok : betaMirror interp s known_eps h all2 = .ok L) :
    ∃ ext, L = all2 ++ ext := by
  unfold betaMirror at hok
  rcases hB : s.findHyp "van der Corput B transform" with _ | B <;>
    simp only [hB] at hok
  · exact ⟨[], by simpa using hok.symm⟩
  · rcases hT : B.transData? with _ | t <;> simp only [hT] at hok
    · exact absurd hok (by simp)
    · rcases hP : (interp t h).pairData? with _ | ep <;> simp only [hP] at hok
      · exact absurd hok (by simp)
      · simp only [Except.ok.injEq] at hok
        by_cases hk : (ep.k, ep.l) ∈ known_eps
        · rw [if_pos hk] at hok
          exact ⟨[], by simp [hok.symm]⟩
        · rw [if_neg hk] at hok
          exact ⟨[interp t h], hok.symm⟩

theorem betaEdgeStep_extends {τ : Type} (interp : τ → Hyp τ → Hyp τ)
    (s : HypSet τ) (points : List Pt) (vidx : List ℕ) (deps : List (Hyp τ))
    (known_eps : List Pt) (all L : List (Hyp τ)) (i : ℕ)
    (hok : betaEdgeStep interp s points vidx deps known_eps all i = .ok L) :
    ∃ ext, L = all ++ ext := by
  unfold betaEdgeStep at hok
  rcases hv1 : vidx.get? i with _ | v1 <;> simp only [hv1] at hok
  · exact absurd hok (by simp)
  · rcases hv2 : vidx.get? ((i + 1) % vidx.length) with _ | v2 <;>
      simp only [hv2] at hok
    · exact absurd hok (by simp)
    · rcases hp1 : points.get? v1 with _ | p1 <;> simp only [hp1] at hok
      · exact absurd hok (by simp)
      · rcases hp2 : points.get? v2 with _ | p2 <;> simp only [hp2] at hok
        · exact absurd hok (by simp)
        · by_cases hdg : degEdge p1 p2
          · rw [if_pos hdg] at hok
            exact ⟨[], by simpa using hok.symm⟩
          · rw [if_neg hdg] at hok
            by_cases hz : p2.1 - p1.1 = 0
            · rw [if_pos hz] at hok
              exact absurd hok (by simp)
            · rw [if_neg hz] at hok
              by_cases hk : ((p2.2 - p1.2) / (p2.1 - p1.1),
                  (p2.2 - p1.2) / (p2.1 - p1.1) +
                    (p1.2 * p2.1 - p1.1 * p2.2) / (p2.1 - p1.1)) ∈ known_eps
              · rw [if_pos hk] at hok
                exact absurd hok (by simp)
              · rw [if_neg hk] at hok
                obtain ⟨ext, hext⟩ := betaMirror_extends interp s known_eps _ _ L hok
                exact ⟨_ :: ext, by simpa [List.append_assoc] using hext⟩

theorem betaEdgeStep_ok_deg {τ : Type} (interp : τ → Hyp τ → Hyp τ)
    (s : HypSet τ) (points : List Pt) (vidx : List ℕ) (deps : List (Hyp τ))
    (known_eps : List Pt) (all L : List (Hyp τ)) (i : ℕ)
    (hok : betaEdgeStep interp s points vidx deps known_eps all i = .ok L)
    (hlen : L.length ≤ all.length) :
    ∀ v1 v2 p1 p2, vidx.get? i = some v1 →
      vidx.get? ((i + 1) % vidx.length) = some v2 →
      points.get? v1 = some p1 → points.get? v2 = some p2 →
      degEdge p1 p2 := by
  intro v1 v2 p1 p2 hv1 hv2 hp1 hp2
  unfold betaEdgeStep at hok
  simp only [hv1, hv2] at hok
  simp only [hp1, hp2] at hok
  by_contra hnd
  rw [if_neg hnd] at hok
  by_cases hz : p2.1 - p1.1 = 0
  · rw [if_pos hz] at hok
    exact absurd hok (by simp)
  · rw [if_neg hz] at hok
    by_cases hk : ((p2.2 - p1.2) / (p2.1 - p1.1),
        (p2.2 - p1.2) / (p2.1 - p1.1) +
          (p1.2 * p2.1 - p1.1 * p2.2) / (p2.1 - p1.1)) ∈ known_eps
    · rw [if_pos hk] at hok
      exact absurd hok (by simp)
    · rw [if_neg hk] at hok
      obtain ⟨ext, hext⟩ := betaMirror_extends interp s known_eps _ _ L hok
      have hL : L.length = all.length + 1 + ext.length := by
        rw [hext]
        simp [List.length_append]
        omega
      omega

theorem edgeLoop_extends {τ : Type} (interp : τ → Hyp τ → Hyp τ)
    (s : HypSet τ) (points : List Pt) (vidx : List ℕ) (deps : List (Hyp τ))
    (known_eps : List Pt) :
    ∀ (idxs : List ℕ) (all L : List (Hyp τ)),
      edgeLoop interp s points vidx deps known_eps idxs all = .ok L →
      all.length ≤ L.length
  | [], all, L, hok => by
      have : all = L := by simpa [edgeLoop] using hok
      simp [this]
  | i :: rest, all, L, hok => by
      unfold edgeLoop at hok
      rcases hstep : betaEdgeStep interp s points vidx deps known_eps all i
          with e | all2 <;> rw [hstep] at hok
      · exact absurd hok (by simp)
      · obtain ⟨ext, rfl⟩ :=
          betaEdgeStep_extends interp s points vidx deps known_eps all all2 i hstep
        have h2 := edgeLoop_extends interp s points vidx deps known_eps rest
          (all ++ ext) L hok
        simp only [List.length_append] at h2
        omega

theorem edgeLoop_nil_deg {τ : Type} (interp : τ → Hyp τ → Hyp τ)
    (s : HypSet τ) (points : List Pt) (vidx : List ℕ) (deps : List (Hyp τ))
    (known_eps : List Pt) :
    ∀ (idxs : List ℕ) (all : List (Hyp τ)),
      edgeLoop interp s points vidx deps known_eps idxs all = .ok [] →
      ∀ i ∈ idxs, ∀ v1 v2 p1 p2, vidx.get? i = some v1 →
        vidx.get? ((i + 1) % vidx.length) = some v2 →
        points.get? v1 = some p1 → points.get? v2 = some p2 →
        degEdge p1 p2
  | [], all, hok => by intro i hi; cases hi
  | i :: rest, all, hok => by
      unfold edgeLoop at hok
      rcases hstep : betaEdgeStep interp s points vidx deps known_eps all i
          with e | all2 <;> rw [hstep] at hok
      · exact absurd hok (by simp)
      · have hlen2 : all2.length ≤ 0 :=
          edgeLoop_extends interp s points vidx deps known_eps rest all2 [] hok
        intro j hj
        rcases List.mem_cons.mp hj with rfl | hj2
        · exact betaEdgeStep_ok_deg interp s points vidx deps known_eps all all2 j
            hstep (by omega)
        · exact edgeLoop_nil_deg interp s points vidx deps known_eps rest all2
            hok j hj2

/-- Recover consecutive positions from an infix pair. -/
theorem get?_of_infix_pair {L : List Pt} {p q : Pt} (h : [p, q] <:+: L) :
    ∃ i, L.get? i = some p ∧ L.get? (i + 1) = some q := by
  obtain ⟨s, t, hst⟩ := h
  refine ⟨s.length, ?_, ?_⟩
  · rw [← hst, List.append_assoc, List.get?_append_right (le_refl s.length)]
    simp
  · rw [← hst, List.append_assoc, List.get?_append_right (by omega)]
    have h2 : s.length + 1 - s.length = 1 := by omega
    rw [h2]
    rfl

/-- Indexing into `dropLast` agrees with the original list away from the
last entry. -/
theorem dropLast_get?_eq {l : List α} {i : ℕ} (h : i + 1 < l.length) :
    l.dropLast.get? i = l.get? i := by
  rw [List.dropLast_eq_take]
  exact List.get?_take (by omega)

/-- Transfer of the cyclic-edge degeneracy of the full hull walk to the
consecutive edges of the lower chain. -/
theorem append_cyc_deg_left {L U hull : List Pt}
    (hhull : hull = L.dropLast ++ U.dropLast)
    (hL2 : 2 ≤ L.length) (hU2 : 2 ≤ U.length)
    (hjoin : U.head? = L.getLast?)
    (hdegcyc : ∀ i p q, hull.get? i = some p →
      hull.get? ((i + 1) % hull.length) = some q → degEdge p q) :
    ∀ p q : Pt, [p, q] <:+: L → degEdge p q := by
  intro p q hinf
  obtain ⟨i, hp, hq⟩ := get?_of_infix_pair hinf
  have hiq : i + 1 < L.length := get?_some_lt hq
  have hhl : hull.length = (L.length - 1) + (U.length - 1) := by
    rw [hhull, List.length_append, List.length_dropLast, List.length_dropLast]
  have hup : hull.get? i = some p := by
    rw [hhull, List.get?_append (by rw [List.length_dropLast]; omega),
      dropLast_get?_eq (by omega)]
    exact hp
  by_cases hcase : i + 1 < L.length - 1
  · have huq : hull.get? ((i + 1) % hull.length) = some q := by
      rw [Nat.mod_eq_of_lt (by omega), hhull,
        List.get?_append (by rw [List.length_dropLast]; omega),
        dropLast_get?_eq (by omega)]
      exact hq
    exact hdegcyc i p q hup huq
  · have hieq : i + 1 = L.length - 1 := by omega
    have hqlast : L.getLast? = some q := by
      rw [List.getLast?_eq_get?, ← hieq]
      exact hq
    have huq : hull.get? ((i + 1) % hull.length) = some q := by
      rw [Nat.mod_eq_of_lt (by omega), hhull,
        List.get?_append_right (by rw [List.length_dropLast]; omega)]
      have hidx : i + 1 - L.dropLast.length = 0 := by
        rw [List.length_dropLast]; omega
      rw [hidx, dropLast_get?_eq (by omega), List.get?_zero, hjoin]
      exact hqlast
    exact hdegcyc i p q hup huq

/-- Transfer of the cyclic-edge degeneracy of the full hull walk to the
consecutive edges of the upper chain. -/
theorem append_cyc_deg_right {L U hull : List Pt}
    (hhull : hull = L.dropLast ++ U.dropLast)
    (hL2 : 2 ≤ L.length) (hU2 : 2 ≤ U.length)
    (hjoin : L.head? = U.getLast?)
    (hdegcyc : ∀ i p q, hull.get? i = some p →
      hull.get? ((i + 1) % hull.length) = some q → degEdge p q) :
    ∀ p q : Pt, [p, q] <:+: U → degEdge p q := by
  intro p q hinf
  obtain ⟨j, hp, hq⟩ := get?_of_infix_pair hinf
  have hjq : j + 1 < U.length := get?_some_lt hq
  have hhl : hull.length = (L.length - 1) + (U.length - 1) := by
    rw [hhull, List.length_append, List.length_dropLast, List.length_dropLast]
  have hup : hull.get? (L.length - 1 + j) = some p := by
    rw [hhull, List.get?_append_right (by rw [List.length_dropLast]; omega)]
    have hidx : L.length - 1 + j - L.dropLast.length = j := by
      rw [List.length_dropLast]; omega
    rw [hidx, dropLast_get?_eq (by omega)]
    exact hp
  by_cases hcase : j + 1 < U.length - 1
  · have huq : hull.get? ((L.length - 1 + j + 1) % hull.length) = some q := by
      rw [Nat.mod_eq_of_lt (by omega), hhull,
        List.get?_append_right (by rw [List.length_dropLast]; omega)]
      have hidx : L.length - 1 + j + 1 - L.dropLast.length = j + 1 := by
        rw [List.length_dropLast]; omega
      rw [hidx, dropLast_get?_eq (by omega)]
      exact hq
    exact hdegcyc (L.length - 1 + j) p q hup huq
  · have hjeq : j + 1 = U.length - 1 := by omega
    have hqlast : U.getLast? = some q := by
      rw [List.getLast?_eq_get?, ← hjeq]
      exact hq
    have hpos : L.length - 1 + j + 1 = hull.length := by omega
    have huq : hull.get? ((L.length - 1 + j + 1) % hull.length) = some q := by
      rw [hpos, Nat.mod_self, hhull,
        List.get?_append (by rw [List.length_dropLast]; omega),
        dropLast_get?_eq (by omega), List.get?_zero, hjoin]
      exact hqlast
    exact hdegcyc (L.length - 1 + j) p q hup huq

/-- The successful hull computation: the hull is the lower chain without its
junction vertex followed by the upper chain without its own, and carries at
least three vertices. -/
theorem hullPts_ok_shape {pts hull : List Pt} (hok : hullPts pts = .ok hull) :
    hull = (chain ((pts.dedup).insertionSort lexLe)).dropLast ++
        (chain ((pts.dedup).insertionSort lexLe).reverse).dropLast ∧
      3 ≤ hull.length := by
  simp only [hullPts] at hok
  by_cases hlen : ((chain ((pts.dedup).insertionSort lexLe)).dropLast ++
      (chain ((pts.dedup).insertionSort lexLe).reverse).dropLast).length < 3
  · rw [if_pos hlen] at hok
    exact Except.noConfusion hok
  · rw [if_neg hlen] at hok
    have h2 : (chain ((pts.dedup).insertionSort lexLe)).dropLast ++
        (chain ((pts.dedup).insertionSort lexLe).reverse).dropLast = hull :=
      Except.ok.inj hok
    refine ⟨h2.symm, ?_⟩
    rw [← h2]
    omega

/-- Every hull vertex is one of the input points. -/
theorem hullPts_mem {pts hull : List Pt} (hok : hullPts pts = .ok hull) :
    ∀ p ∈ hull, p ∈ pts := by
  obtain ⟨hhull, -⟩ := hullPts_ok_shape hok
  intro p hp
  rw [hhull] at hp
  rcases List.mem_append.mp hp with h | h
  · have h2 := (List.dropLast_sublist _).subset h
    have h3 := (chain_sublist _).subset h2
    exact (srt_mem_iff pts p).mp h3
  · have h2 := (List.dropLast_sublist _).subset h
    have h3 := (chain_sublist _).subset h2
    rw [List.mem_reverse] at h3
    exact (srt_mem_iff pts p).mp h3

/-- Looking a member up at its own first-occurrence index returns it. -/
theorem get?_indexOf_self {p : Pt} : ∀ {l : List Pt}, p ∈ l →
    l.get? (l.indexOf p) = some p := by
  intro l
  induction l with
  | nil => intro h; cases h
  | cons a t ih =>
    intro h
    rw [List.indexOf_cons]
    by_cases hpa : a == p
    · rw [hpa, cond_true]
      have h2 : a = p := eq_of_beq hpa
      rw [h2]
      rfl
    · rw [Bool.not_eq_true] at hpa
      rw [hpa, cond_false]
      have hpt : p ∈ t := by
        rcases List.mem_cons.mp h with rfl | h2
        · rw [beq_self_eq_true p] at hpa
          exact Bool.noConfusion hpa
        · exact h2
      exact ih hpt

/-- A hull walk all of whose cyclic edges are degenerate is impossible when
the input points include (0,0) and (1/2,0) and all abscissae lie in [0,1/2]:
the three degenerate lines support no three-vertex convex polygon. -/
theorem hull_all_deg_false (pts hull : List Pt)
    (hok : hullPts pts = .ok hull)
    (h00 : ((0 : ℚ), (0 : ℚ)) ∈ pts) (h120 : ((1 : ℚ)/2, (0 : ℚ)) ∈ pts)
    (hx : ∀ p ∈ pts, 0 ≤ p.1 ∧ p.1 ≤ 1/2)
    (hdegcyc : ∀ i p q, hull.get? i = some p →
      hull.get? ((i + 1) % hull.length) = some q → degEdge p q) :
    False := by
  obtain ⟨hhull, hlen3⟩ := hullPts_ok_shape hok
  have hsrtne : (pts.dedup).insertionSort lexLe ≠ [] := by
    intro h
    have hm : ((0 : ℚ), (0 : ℚ)) ∈ (pts.dedup).insertionSort lexLe :=
      (srt_mem_iff pts _).mpr h00
    rw [h] at hm
    cases hm
  have hrevne : ((pts.dedup).insertionSort lexLe).reverse ≠ [] := by
    simpa using hsrtne
  obtain ⟨m0, hm0, hm0x, hm0y⟩ := srt_head_bounds pts h00 hx
  obtain ⟨m1, hm1, hm1x, hm1y⟩ := srt_last_bounds pts h120 hx
  have hLhead : (chain ((pts.dedup).insertionSort lexLe)).head? = some m0 := by
    rw [chain_head _ hsrtne]
    exact hm0
  have hLlast : (chain ((pts.dedup).insertionSort lexLe)).getLast? = some m1 := by
    rw [chain_last _ hsrtne]
    exact hm1
  have hUhead : (chain ((pts.dedup).insertionSort lexLe).reverse).head? =
      some m1 := by
    rw [chain_head _ hrevne, List.head?_reverse]
    exact hm1
  have hUlast : (chain ((pts.dedup).insertionSort lexLe).reverse).getLast? =
      some m0 := by
    rw [chain_last _ hrevne, List.getLast?_reverse]
    exact hm0
  have hm01 : m0 ≠ m1 := by
    intro h
    rw [h, hm1x] at hm0x
    norm_num at hm0x
  have hL2 : 2 ≤ (chain ((pts.dedup).insertionSort lexLe)).length := by
    rcases hc : chain ((pts.dedup).insertionSort lexLe) with _ | ⟨a, t⟩
    · exact absurd hc (chain_ne_nil _ hsrtne)
    · rcases t with _ | ⟨b, t2⟩
      · rw [hc] at hLhead hLlast
        simp at hLhead hLlast
        exact absurd (hLhead.symm.trans hLlast) hm01
      · simp only [List.length_cons]
        omega
  have hU2 : 2 ≤ (chain ((pts.dedup).insertionSort lexLe).reverse).length := by
    rcases hc : chain ((pts.dedup).insertionSort lexLe).reverse with _ | ⟨a, t⟩
    · exact absurd hc (chain_ne_nil _ hrevne)
    · rcases t with _ | ⟨b, t2⟩
      · rw [hc] at hUhead hUlast
        simp at hUhead hUlast
        exact absurd (hUlast.symm.trans hUhead) hm01
      · simp only [List.length_cons]
        omega
  have hdegL := append_cyc_deg_left hhull hL2 hU2
    (hUhead.trans hLlast.symm) hdegcyc
  have hdegU := append_cyc_deg_right hhull hL2 hU2
    (hLhead.trans hUlast.symm) hdegcyc
  have hLpw : (chain ((pts.dedup).insertionSort lexLe)).Pairwise lexLt :=
    List.Pairwise.sublist (chain_sublist _) (srt_pairwise_lexLt pts)
  have hLshape := chain_shape _ hLpw (chain_ccw _) hdegL
    ⟨m0, hLhead, hm0x, hm0y⟩ ⟨m1, hLlast, hm1x, hm1y⟩
  have hUpw : (chain ((pts.dedup).insertionSort lexLe).reverse).Pairwise
      (fun a b => lexLt b a) :=
    List.Pairwise.sublist (chain_sublist _)
      (List.pairwise_reverse.mpr (srt_pairwise_lexLt pts))
  have hWpw : ((chain ((pts.dedup).insertionSort lexLe).reverse).map
      phi).Pairwise lexLt :=
    List.pairwise_map.mpr (hUpw.imp fun h => phi_lexLt h)
  have hWtrip : ∀ o a b : Pt,
      [o, a, b] <:+: (chain ((pts.dedup).insertionSort lexLe).reverse).map phi →
        0 < cross o a b := by
    intro o a b hinf
    have h2 := hinf.map phi
    rw [map_phi_phi] at h2
    have h3 := chain_ccw ((pts.dedup).insertionSort lexLe).reverse
      (phi o) (phi a) (phi b) (by simpa using h2)
    rwa [phi_cross] at h3
  have hWdeg : ∀ p q : Pt,
      [p, q] <:+: (chain ((pts.dedup).insertionSort lexLe).reverse).map phi →
        degEdge p q := by
    intro p q hinf
    have h2 := hinf.map phi
    rw [map_phi_phi] at h2
    have h3 := phi_deg (hdegU (phi p) (phi q) (by simpa using h2))
    rwa [phi_phi, phi_phi] at h3
  have hWhead : (((chain ((pts.dedup).insertionSort lexLe).reverse).map
      phi)).head? = some (phi m1) := by
    rw [List.head?_map, hUhead]
    rfl
  have hWlast : (((chain ((pts.dedup).insertionSort lexLe).reverse).map
      phi)).getLast? = some (phi m0) := by
    rw [List.getLast?_map, hUlast]
    rfl
  have hWshape := chain_shape _ hWpw hWtrip hWdeg
    ⟨phi m1, hWhead, by show (1 : ℚ)/2 - m1.1 = 0; rw [hm1x]; norm_num,
      by show -m1.2 ≤ (0 : ℚ); linarith⟩
    ⟨phi m0, hWlast, by show (1 : ℚ)/2 - m0.1 = 1/2; rw [hm0x]; norm_num,
      by show (0 : ℚ) ≤ -m0.2; linarith⟩
  have hm12 : m1.2 = 0 := by
    have hWh0 : ((chain ((pts.dedup).insertionSort lexLe).reverse).map
        phi).head? = some ((0 : ℚ), (0 : ℚ)) := by
      rcases hWshape with hC | ⟨y2, hy2, hD⟩
      · rw [hC]
        rfl
      · rw [hD]
        rfl
    rw [hWhead] at hWh0
    have h2 : phi m1 = ((0 : ℚ), (0 : ℚ)) := Option.some.inj hWh0
    have h3 : -m1.2 = 0 := congrArg Prod.snd h2
    linarith
  have hm02 : m0.2 = 0 := by
    have hLh0 : (chain ((pts.dedup).insertionSort lexLe)).head? =
        some ((0 : ℚ), (0 : ℚ)) := by
      rcases hLshape with hA | ⟨y2, hy2, hB⟩
      · rw [hA]
        rfl
      · rw [hB]
        rfl
    rw [hLhead] at hLh0
    have h2 : m0 = ((0 : ℚ), (0 : ℚ)) := Option.some.inj hLh0
    rw [h2]
  have hLlen : (chain ((pts.dedup).insertionSort lexLe)).length = 2 := by
    rcases hLshape with hA | ⟨y2, hy2, hB⟩
    · rw [hA]
      rfl
    · exfalso
      have h2 : (chain ((pts.dedup).insertionSort lexLe)).getLast? =
          some ((1 : ℚ)/2, y2) := by
        rw [hB]
        rfl
      rw [hLlast] at h2
      have h3 : m1.2 = y2 := by
        rw [Option.some.inj h2]
      linarith
  have hUlen : (chain ((pts.dedup).insertionSort lexLe).reverse).length = 2 := by
    rcases hWshape with hC | ⟨y2, hy2, hD⟩
    · have h2 := congrArg List.length hC
      rw [List.length_map] at h2
      exact h2
    · exfalso
      have h2 : ((chain ((pts.dedup).insertionSort lexLe).reverse).map
          phi).getLast? = some ((1 : ℚ)/2, y2) := by
        rw [hD]
        rfl
      rw [hWlast] at h2
      have h3 := Option.some.inj h2
      have h4 : -m0.2 = y2 := congrArg Prod.snd h3
      rw [hm02] at h4
      linarith
  rw [hhull, List.length_append, List.length_dropLast, List.length_dropLast,
    hLlen, hUlen] at hlen3
  omega

set_option maxHeartbeats 2000000 in
/-- Claim C7: the β-duality converter returns an empty list exactly when its
coverage precondition fails — no β-bound pieces exist, or the first piece's
domain starts after 0, or the last piece's domain ends before 1/2; in
particular on an empty bound collection it returns an empty list. -/
theorem C7_converter_empty_iff_precondition {τ : Type}
    (interp : τ → Hyp τ → Hyp τ) (s : HypSet τ) :
    beta_bounds_to_exponent_pairs interp s = .ok [] ↔
      betaPrecondFails s = true := by
  constructor
  · intro hok
    by_contra hpre
    rw [Bool.not_eq_true] at hpre
    unfold betaPrecondFails at hpre
    unfold beta_bounds_to_exponent_pairs at hok
    rcases hh : (best_beta_bounds (τ := τ) s).head? with _ | fst0 <;>
      simp only [hh] at hpre hok
    · exact Bool.noConfusion hpre
    rcases hl : (best_beta_bounds (τ := τ) s).getLast? with _ | lst0 <;>
      simp only [hl] at hpre hok
    · exact Bool.noConfusion hpre
    have hcov : ¬ (fst0.2.x0 > 0 ∨ lst0.2.x1 < 1/2) := of_decide_eq_false hpre
    rw [if_neg hcov] at hok
    rcases hcv : convexHullIdx (betaPoints (best_beta_bounds s)) with e | vidx <;>
      simp only [hcv] at hok
    · exact Except.noConfusion hok
    have hdeg := edgeLoop_nil_deg interp s (betaPoints (best_beta_bounds s))
      vidx (betaDeps (best_beta_bounds s) (betaPoints (best_beta_bounds s)) vidx)
      ((s.listHyps "Exponent pair").map hypCoord)
      (List.range vidx.length) (s.listHyps "Exponent pair") hok
    obtain ⟨hull, hhp, hvidx⟩ : ∃ hull,
        hullPts (betaPoints (best_beta_bounds s)) = .ok hull ∧
          vidx = hull.map
            (fun p => (betaPoints (best_beta_bounds s)).indexOf p) := by
      unfold convexHullIdx at hcv
      rcases hhp : hullPts (betaPoints (best_beta_bounds (τ := τ) s))
          with e2 | hull <;> simp only [hhp, Except.map] at hcv
      · exact Except.noConfusion hcv
      · simp only [Except.ok.injEq] at hcv
        exact ⟨hull, rfl, hcv.symm⟩
    refine hull_all_deg_false (betaPoints (best_beta_bounds s)) hull hhp
      ?_ ?_ ?_ ?_
    · unfold betaPoints
      exact List.mem_append_left _ (List.mem_cons_self _ _)
    · unfold betaPoints
      exact List.mem_append_left _ (by simp)
    · intro p hp
      unfold betaPoints at hp
      rcases List.mem_append.mp hp with h | h
      · rcases List.mem_cons.mp h with rfl | h2
        · norm_num
        rcases List.mem_cons.mp h2 with rfl | h3
        · norm_num
        · cases h3
      · rw [List.mem_flatMap] at h
        obtain ⟨e, -, hpe⟩ := h
        rcases List.mem_cons.mp hpe with rfl | h2
        · exact e.2.hx0
        rcases List.mem_cons.mp h2 with rfl | h3
        · exact e.2.hx1
        · cases h3
    · intro i p q hp hq
      have hlenv : vidx.length = hull.length := by
        rw [hvidx, List.length_map]
      have hpm : p ∈ betaPoints (best_beta_bounds (τ := τ) s) :=
        hullPts_mem hhp p (List.get?_mem hp)
      have hqm : q ∈ betaPoints (best_beta_bounds (τ := τ) s) :=
        hullPts_mem hhp q (List.get?_mem hq)
      have hv1 : vidx.get? i =
          some ((betaPoints (best_beta_bounds (τ := τ) s)).indexOf p) := by
        rw [hvidx, List.get?_map, hp]
        rfl
      have hv2 : vidx.get? ((i + 1) % vidx.length) =
          some ((betaPoints (best_beta_bounds (τ := τ) s)).indexOf q) := by
        rw [hvidx, List.get?_map, List.length_map, hq]
        rfl
      have hil : i < hull.length := get?_some_lt hp
      exact hdeg i (List.mem_range.mpr (by omega)) _ _ p q hv1 hv2
        (get?_indexOf_self hpm) (get?_indexOf_self hqm)
  · intro hpre
    unfold betaPrecondFails at hpre
    unfold beta_bounds_to_exponent_pairs
    rcases hh : (best_beta_bounds s).head? with _ | fst0
    · simp only [hh]
    · rcases hl : (best_beta_bounds s).getLast? with _ | lst0
      · simp only [hh, hl]
      · simp only [hh, hl] at hpre
        have hcov : fst0.2.x0 > 0 ∨ lst0.2.x1 < 1/2 := of_decide_eq_true hpre
        simp only [hh, hl]
        rw [if_pos hcov]

/-- A successful optimized citation: the target passed the containment test
and the returned hypothesis is built from the best triangle. -/
theorem hull_cite_true_ok_some {τ : Type} (k l : ℚ) (verts : List (Hyp τ))
    (h : Hyp τ) (hres : hull_cite k l verts true = .ok (some h)) :
    containsQ (verts.map hypCoord) (k, l) = true ∧
      ∃ tri, best_tri k l verts = some tri ∧
        h = derived_exp_pair k l (convexityProof tri) tri := by
  unfold hull_cite at hres
  by_cases hc : containsQ (verts.map hypCoord) (k, l) = true
  · rw [if_pos hc, if_pos rfl] at hres
    rcases hb : best_tri k l verts with _ | tri <;> rw [hb] at hres
    · exact absurd hres (by simp)
    · refine ⟨hc, tri, rfl, ?_⟩
      have := hres
      simp only [Except.ok.injEq, Option.some.injEq] at this
      exact this.symm
  · rw [if_neg hc] at hres
    exact absurd hres (by simp)

/-- Claim C6: whenever the optimized search succeeds and the computed hull
has at least 3 distinct vertices, the returned hypothesis cites exactly 3
dependencies: the first (in `itertools.combinations` enumeration order)
containing triangle of hull vertices of least total proof complexity. -/
theorem C6_optimized_proof_triangle {τ : Type} (interp : τ → Hyp τ → Hyp τ)
    (k l : ℚ) (s s2 : HypSet τ) (verts : List (Hyp τ)) (h : Hyp τ)
    (haug : augmentedSet interp s = .ok s2)
    (hne : (s2.listHyps "Exponent pair").length ≠ 0)
    (hhull : (compute_convex_hull s2).1 = .ok verts)
    (hnd : (verts.map hypCoord).Nodup)
    (h3 : 3 ≤ verts.length)
    (hrun : (find_proof interp k l s true).1 = .ok (some h)) :
    h.dependencies.length = 3 ∧
    ∃ i tri, (combos3 verts).get? i = some tri ∧ h.dependencies = tri ∧
      containsQ (tri.map hypCoord) (k, l) = true ∧
      (∀ tri2 ∈ combos3 verts, containsQ (tri2.map hypCoord) (k, l) = true →
        triComp tri ≤ triComp tri2) ∧
      (∀ j tri2, j < i → (combos3 verts).get? j = some tri2 →
        containsQ (tri2.map hypCoord) (k, l) = true →
        triComp tri < triComp tri2) := by
  rw [find_proof_fst_eq interp k l s s2 verts true haug hne hhull] at hrun
  obtain ⟨hc, tri, hb, rfl⟩ := hull_cite_true_ok_some k l verts h hrun
  have hspec := best_tri_spec k l verts tri hb
  dsimp only [TriInv] at hspec
  obtain ⟨-, hcont, ⟨i, hgi, hfirst⟩, hmin⟩ := hspec
  have hdeps : (derived_exp_pair k l (convexityProof tri) tri).dependencies = tri := rfl
  have hmem : tri ∈ combos3 verts := List.get?_mem hgi
  exact ⟨by rw [hdeps]; exact combos3_length hmem,
    i, tri, hgi, hdeps, hcont, hmin, hfirst⟩

/-- Claim C6 witness: the optimized search over three non-collinear pairs
for a boundary target cites exactly three dependencies. -/
theorem C6_optimized_proof_triangle_witness :
    (Hyp.dependencies C6hyp).length = 3 := by
  have haug : augmentedSet interp0 S1900 = .ok S1900 := rfl
  have hhull : (compute_convex_hull S1900).1 = .ok C6verts := rfl
  have hrun : (find_proof interp0 (1/4) (3/4) S1900 true).1 = .ok (some C6hyp) := rfl
  exact (C6_optimized_proof_triangle interp0 (1/4) (3/4) S1900 S1900 C6verts C6hyp
    haug (by decide) hhull (by decide) (by decide) hrun).1

/-- Claim C8, counterexample: with the no-optimization selector the search
completes silently and returns the implicit `None` — the very value of an
ordinary failed search (here: an earliest-date search whose target is outside
every year's hull) — so the outcome is not a distinguishable explicit
"not supported" result. -/
theorem C8_none_method_counterexample :
    isOkNone (find_best_proof interp0 (1/2) (1/2) STriv .NONE).1 = true ∧
      isOkNone (find_best_proof interp0 (1/2) (1/2) SDate .DATE).1 = true :=
  ⟨by decide, by decide⟩

/-- Claim C8 (amended): with the no-optimization selector `find_best_proof`
augments the set and computes the hull, then falls off the function body: it
returns the implicit `None` (the same value as the ordinary "no result"), or
propagates an exception of the augmentation/hull stages; it never returns a
hypothesis and never returns a distinguishable "not supported" value.  An
unrecognized selector does fail fast with `NotImplementedError`. -/
theorem C8_none_and_unrecognized {τ : Type} (interp : τ → Hyp τ → Hyp τ)
    (k l : ℚ) (s : HypSet τ) :
    ((find_best_proof interp k l s .NONE).1 = .ok none ∨
      ∃ e, (find_best_proof interp k l s .NONE).1 = .error e) ∧
    (∀ tag, (find_best_proof interp k l s (.other tag)).1 = .error .notImpl) := by
  constructor
  · unfold find_best_proof
    rcases augmentedSet interp s with e | s2
    · exact Or.inr ⟨e, rfl⟩
    · simp only
      rcases h : (compute_convex_hull s2).1 with e | verts <;> simp only [h]
      · exact Or.inr ⟨e, rfl⟩
      · exact Or.inl trivial
  · intro tag
    rfl

/-- Every element of an `Int` list is bounded by the running `foldl max`. -/
theorem le_foldl_max_init : ∀ (t : List Int) (a : Int), a ≤ t.foldl max a
  | [], _ => le_refl _
  | b :: t, a =>
      le_trans (le_max_left a b) (le_foldl_max_init t (max a b))

theorem le_foldl_max_mem : ∀ (t : List Int) (a y : Int), y ∈ t →
    y ≤ t.foldl max a
  | b :: t, a, y, hy => by
      rcases List.mem_cons.mp hy with rfl | hy2
      · exact le_trans (le_max_right a y) (le_foldl_max_init t (max a y))
      · exact le_foldl_max_mem t (max a b) y hy2

theorem max?_bound (xs : List Int) (y : Int) (hy : y ∈ xs) :
    ∃ Y, xs.max? = some Y ∧ y ≤ Y := by
  rcases xs with _ | ⟨a, t⟩
  · cases hy
  · refine ⟨t.foldl max a, rfl, ?_⟩
    rcases List.mem_cons.mp hy with rfl | hy2
    · exact le_foldl_max_init t y
    · exact le_foldl_max_mem t a y hy2

/-- The latest known year of a reference collection bounds every known year
in it. -/
theorem maxYear_bound (rs : List Ref) (r : Ref) (y : Int) (hr : r ∈ rs)
    (hy : r.year? = some y) : ∃ Y, Ref.maxYear rs = some Y ∧ y ≤ Y :=
  max?_bound _ y (List.mem_filterMap.mpr ⟨r, hr, hy⟩)

/-- Any hypothesis produced by a successful `hull_cite` is a
`derived_exp_pair` citing some vertex list. -/
theorem hull_cite_ok_some_shape {τ : Type} (k l : ℚ) (verts : List (Hyp τ))
    (opt : Bool) (h : Hyp τ) (hres : hull_cite k l verts opt = .ok (some h)) :
    ∃ deps, h = derived_exp_pair k l (convexityProof deps) deps := by
  unfold hull_cite at hres
  by_cases hc : containsQ (verts.map hypCoord) (k, l) = true
  · rw [if_pos hc] at hres
    rcases opt with _ | _
    · rw [if_neg (by simp : ¬ (false = true))] at hres
      exact ⟨verts, by simpa using hres.symm⟩
    · rw [if_pos rfl] at hres
      rcases hb : best_tri k l verts with _ | tri <;> rw [hb] at hres
      · exact absurd hres (by simp)
      · exact ⟨tri, by simpa using hres.symm⟩
  · rw [if_neg hc] at hres
    exact absurd hres (by simp)

/-- Any hypothesis returned by a successful `find_proof` is a
`derived_exp_pair` citing some vertex list. -/
theorem find_proof_ok_some_shape {τ : Type} (interp : τ → Hyp τ → Hyp τ)
    (k l : ℚ) (s : HypSet τ) (opt : Bool) (h : Hyp τ)
    (hres : (find_proof interp k l s opt).1 = .ok (some h)) :
    ∃ deps, h = derived_exp_pair k l (convexityProof deps) deps := by
  unfold find_proof at hres
  rcases haug : augmentedSet interp s with e | s2 <;> simp only [haug] at hres
  · exact absurd hres (by simp)
  · by_cases hz : (s2.listHyps "Exponent pair").length = 0
    · rw [if_pos hz] at hres
      exact absurd hres (by simp)
    · rw [if_neg hz] at hres
      rcases hv : (compute_convex_hull s2).1 with e | verts <;>
        simp only [hv] at hres
      · exact absurd hres (by simp)
      · exact hull_cite_ok_some_shape k l verts opt h hres

/-- Any hypothesis returned by the earliest-date year walk comes from a
successful `find_proof` over some filtered set. -/
theorem date_loop_ok_some {τ : Type} (interp : τ → Hyp τ → Hyp τ) (k l : ℚ)
    (s : HypSet τ) :
    ∀ (fuel : ℕ) (year : Int) (num : ℕ) (h : Hyp τ),
      date_loop interp k l s year fuel num = .ok (some h) →
      ∃ s2, (find_proof interp k l s2 true).1 = .ok (some h)
  | 0, year, num, h, hres => absurd hres (by simp [date_loop])
  | fuel + 1, year, num, h, hres => by
      unfold date_loop at hres
      by_cases hsz : (date_filtered s year).size = num
      · rw [if_pos hsz] at hres
        exact date_loop_ok_some interp k l s fuel (year + 1) num h hres
      · rw [if_neg hsz] at hres
        rcases hf : (find_proof interp k l (date_filtered s year) true).1
            with e | o <;> simp only [hf] at hres
        · exact absurd hres (by simp)
        · rcases o with _ | h2
          · exact date_loop_ok_some interp k l s fuel (year + 1) _ h hres
          · have hh : h2 = h := by simpa using hres
            exact ⟨date_filtered s year, by rw [hf, hh]⟩

/-- Claim C9: whenever the earliest-date strategy returns a proof, every
cited dependency with a known publication year is dated at or before the
returned hypothesis's own derived year (the maximum over its dependencies'
references). -/
theorem C9_date_dependencies_year_bound {τ : Type}
    (interp : τ → Hyp τ → Hyp τ) (k l : ℚ) (s : HypSet τ) (h : Hyp τ)
    (hrun : (find_best_proof interp k l s .DATE).1 = .ok (some h)) :
    ∀ (i : ℕ) (d : Hyp τ) (y : Int), h.dependencies.get? i = some d →
      (Hyp.reference d).year? = some y →
      ∃ Y, h.reference.year? = some Y ∧ y ≤ Y := by
  unfold find_best_proof at hrun
  rcases h1 : ((s.hyps.filterMap fun h => h.reference.year?).min?) with _ | y1 <;>
    rcases h2 : ((s.hyps.filterMap fun h => h.reference.year?).max?) with _ | y2 <;>
      simp only [h1, h2] at hrun
  · exact absurd hrun (by simp)
  · exact absurd hrun (by simp)
  · exact absurd hrun (by simp)
  · obtain ⟨s2, hfp⟩ := date_loop_ok_some interp k l s _ y1 0 h hrun
    obtain ⟨deps, rfl⟩ := find_proof_ok_some_shape interp k l s2 true h hfp
    intro i d y hget hy
    have hd : d ∈ deps := List.get?_mem hget
    have hr : Hyp.reference d ∈ deps.map Hyp.reference := List.mem_map_of_mem _ hd
    exact maxYear_bound (deps.map Hyp.reference) (Hyp.reference d) y hr hy

/-- Claim C9 witness: the earliest-date search over three 1900 pairs
returns a hypothesis whose first dependency (dated 1900) is at or before the
derived year. -/
theorem C9_date_dependencies_year_bound_witness :
    ∃ Y, (Hyp.reference C9hyp).year? = some Y ∧ (1900 : Int) ≤ Y := by
  have hrun : (find_best_proof interp0 (1/4) (3/4) S1900 .DATE).1 =
      .ok (some C9hyp) := rfl
  have hget : (Hyp.dependencies C9hyp).get? 0 = some C9dep0 := rfl
  exact C9_date_dependencies_year_bound interp0 (1/4) (3/4) S1900 C9hyp hrun
    0 C9dep0 1900 hget (by decide)

/-- Claim C10: whenever the hull computed for the augmented set has fewer
than three vertices (the degenerate cache branch) yet the containment
polytope built from them contains the target, the optimized search reaches
the triangle-construction step with no candidate triangle (`best_tri` stays
`None`) and raises `TypeError` instead of returning a hypothesis or the
"no result" value. -/
theorem C10_degenerate_triangle_crash {τ : Type} (interp : τ → Hyp τ → Hyp τ)
    (k l : ℚ) (s s2 : HypSet τ) (verts : List (Hyp τ))
    (haug : augmentedSet interp s = .ok s2)
    (hne : (s2.listHyps "Exponent pair").length ≠ 0)
    (hhull : (compute_convex_hull s2).1 = .ok verts)
    (hlt : verts.length < 3)
    (hin : containsQ (verts.map hypCoord) (k, l) = true) :
    (find_proof interp k l s true).1 = .error .typeErr := by
  rw [find_proof_fst_eq interp k l s s2 verts true haug hne hhull]
  unfold hull_cite
  rw [if_pos hin, if_pos rfl, best_tri_none_of_short k l verts hlt]

/-- Claim C10 witness: the single known pair (0, 1) with the target (0, 1)
itself: the degenerate hull contains the target and the search raises. -/
theorem C10_degenerate_triangle_crash_witness :
    (find_proof interp0 0 1 STriv true).1 = .error .typeErr :=
  C10_degenerate_triangle_crash interp0 0 1 STriv STriv
    (STriv.listHyps "Exponent pair") rfl (by decide) rfl (by decide) (by decide)

end ExpPairDB
